import Mathlib

/-!
Verification development for the dl_wm task-state store and pipeline router.

The Python sources are embedded shallowly:

* `src/lib/tasks_lib.py` — metadata documents, the task map, the URL index
  (`find_url_json`, `upsert_metadata_index`, `update_task_output_path`,
  `write_masked_metadata_with_tasks`);
* `src/bin/call_router.py` — task dispatch (`execute_tasks`), the download
  finalization wait (`wait_for_download_file`), and `main`'s control flow;
* `src/bin/cleanup_failed_url.py` — token-based cleanup with dry-run support.

JSON dictionaries are modelled as association lists with Python-dict update
semantics (replace the unique existing entry in place, else append).  File
contents are modelled explicitly: an index file is a list of lines (blank,
malformed, or a parsed record), a document store is an association list from
filename to parse result (`none` = file present but unreadable/corrupt).
-/

set_option autoImplicit false

namespace DLWM

/-- A value stored under a task name in a document's `default_tasks` map:
`bool true` is a pending task, `bool false` a skipped/disabled task, and
`str p` records completion with output path `p` (all other JSON values are
treated by the code exactly like `bool false`: not `True`, not a `str`). -/
inductive TaskVal where
  | bool (b : Bool)
  | str (s : String)
  deriving DecidableEq, Repr

/-- Association-list lookup: value of the first entry with the given key
(Python dicts have unique keys, so "first" is "the" entry). -/
def alGet {α : Type} : List (String × α) → String → Option α
  | [], _ => none
  | (k', v') :: rest, k => if k' = k then some v' else alGet rest k

/-- Python dict assignment `d[k] = v`: replace the first entry with key `k`
in place, or append a new entry when the key is absent. -/
def alSet {α : Type} : List (String × α) → String → α → List (String × α)
  | [], k, v => [(k, v)]
  | (k', v') :: rest, k, v =>
    if k' = k then (k, v) :: rest else (k', v') :: alSet rest k v

/-- Python `d.setdefault(k, v)`: keep the dict unchanged when the key is
present, append `(k, v)` when it is absent. -/
def alSetD {α : Type} (l : List (String × α)) (k : String) (v : α) :
    List (String × α) :=
  match alGet l k with
  | some _ => l
  | none => l ++ [(k, v)]

/-- A metadata document (one JSON object per artifact): the `url` field
(`none` = key absent), the `default_tasks` map (`none` = key absent), and
the remaining descriptive fields as string-valued entries. -/
structure Metadata where
  url : Option String
  defaultTasks : Option (List (String × TaskVal))
  fields : List (String × String)
  deriving DecidableEq, Repr

/-- Caller-supplied `params` dict, modelled as string-valued entries. -/
def pget (params : List (String × String)) (k : String) : Option String :=
  alGet params k

/-- Python truthiness of an optional string: `None` and `""` are falsy. -/
def truthy : Option String → Bool
  | some s => s ≠ ""
  | none => false

/-- Task value read out of a document's `default_tasks` map, through an
optional document (file may be absent) and optional map (key may be absent). -/
def docTaskGet (doc : Option Metadata) (t : String) : Option TaskVal :=
  doc.bind fun m => m.defaultTasks.bind fun ts => alGet ts t

/-- Embedding of `tasks_lib.update_task_output_path(metadata_path, task,
output_path)`.  The state is the persisted document at `metadata_path`
(`none` = file absent).  The source returns early (no write) when the file
is missing or `output_path` is falsy; otherwise it loads the JSON, assigns
`metadata["default_tasks"][task] = output_path` when a `default_tasks`
section exists (adding the task key if it was absent), and rewrites the
file. -/
def update_task_output_path (doc : Option Metadata) (task output_path : String) :
    Option Metadata :=
  match doc with
  | none => none
  | some m =>
    if output_path = "" then some m
    else
      match m.defaultTasks with
      | none => some m
      | some ts => some { m with defaultTasks := some (alSet ts task (.str output_path)) }

/-- The allow-list `masked_keys` of `tasks_lib.write_masked_metadata_with_tasks`. -/
def masked_keys : List String :=
  ["video_title", "video_date", "uploader", "file_path", "duration", "width",
   "height", "id", "ext", "resolution", "fps", "channels", "filesize", "tbr",
   "protocol", "vcodec", "vbr", "acodec", "abr", "asr"]

/-- Python `a or b` on two optional strings: `a` when truthy, else `b`. -/
def pyOr (a b : Option String) : Option String :=
  match a with
  | some s => if s = "" then b else some s
  | none => b

/-- The `output_path` computed by `write_masked_metadata_with_tasks`:
`params.get("to_process") or params.get("original_filename")`. -/
def out_path_of (params : List (String × String)) : Option String :=
  pyOr (pget params "to_process") (pget params "original_filename")

/-- Embedding of `tasks_lib.write_masked_metadata_with_tasks(params)` (the
spec's `create_or_overwrite`).  `existing` is the prior document at the
metadata path (`none` = absent, unreadable, or not a JSON object — all three
make the source start from `{}`); `registry` is the `default_tasks` table
loaded from the config (`[]` when the config file is missing).  The source
rebuilds the document from scratch: it keeps only the prior `default_tasks`
and `url`, copies the allow-listed `masked_keys` from `params`, overrides
`url` from `params` when truthy, seeds missing task keys from the registry
via `setdefault`, and finally force-sets `default_tasks["perform_download"]`
to `params.get("to_process") or params.get("original_filename")` when that
is truthy. -/
def write_masked_metadata_with_tasks (existing : Option Metadata)
    (params : List (String × String)) (registry : List (String × TaskVal)) :
    Metadata :=
  let dt0 : Option (List (String × TaskVal)) :=
    match existing with
    | some m => m.defaultTasks
    | none => none
  let url0 : Option String :=
    match existing with
    | some m => m.url
    | none => none
  let fields := masked_keys.filterMap fun k => (pget params k).map fun v => (k, v)
  let url1 :=
    match pget params "url" with
    | some u => if u = "" then url0 else some u
    | none => url0
  let dt1 :=
    match dt0 with
    | some l => l
    | none => []
  let dt2 := registry.foldl (fun acc e => alSetD acc e.1 e.2) dt1
  let dt3 :=
    match out_path_of params with
    | some s => if s = "" then dt2 else alSet dt2 "perform_download" (.str s)
    | none => dt2
  { url := url1, defaultTasks := some dt3, fields := fields }

/-- One parsed record of `metadata/index.jsonl`; every field is optional
because `record.get(...)` tolerates absent keys. -/
structure IndexRecord where
  url : Option String
  metadata_file : Option String
  id : Option String
  shortcode : Option String
  deriving DecidableEq, Repr

/-- One physical line of the index file: blank, json-malformed (with its raw
text), or a parsed record. -/
inductive Line where
  | blank
  | malformed (s : String)
  | record (r : IndexRecord)
  deriving DecidableEq, Repr

/-- The records among a list of index lines, in file order. -/
def recordsOf (lines : List Line) : List IndexRecord :=
  lines.filterMap fun l =>
    match l with
    | .record r => some r
    | _ => none

/-- The records whose `url` field equals the queried url, in file order. -/
def matchingRecords (lines : List Line) (u : String) : List IndexRecord :=
  (recordsOf lines).filter fun r => r.url = some u

/-- The scan loop of `tasks_lib.find_url_json`: `metadata_file` starts as
`None` and is overwritten by `record.get("metadata_file")` at every record
whose `url` matches (blank and malformed lines are skipped), so the last
matching record wins — even when it lacks a `metadata_file` key. -/
def scan_index (lines : List Line) (u : String) : Option String :=
  lines.foldl
    (fun acc l =>
      match l with
      | .record r => if r.url = some u then r.metadata_file else acc
      | _ => acc)
    none

/-- A document store: association list from filename to parse result
(`some (some m)` = file parses to `m`, `some none` = file present but
unreadable or malformed, `none` i.e. key absent = file missing). -/
abbrev DocStore : Type := List (String × Option Metadata)

/-- Embedding of `tasks_lib.find_url_json(url, metadata_dir)`.  Returns
`none` when the metadata directory or the index file is missing, when no
truthy `metadata_file` survives the scan, or when the referenced document
file is missing or fails to parse; otherwise the filename and document. -/
def find_url_json (dirExists indexExists : Bool) (lines : List Line)
    (docs : DocStore) (u : String) : Option (String × Metadata) :=
  if !dirExists then none
  else if !indexExists then none
  else
    match scan_index lines u with
    | some mf =>
      if mf = "" then none
      else
        match alGet docs mf with
        | some (some d) => some (mf, d)
        | some none => none
        | none => none
    | none => none

/-- The record `upsert_metadata_index` builds from the document being saved:
`shortcode` falls back to `display_id` via Python `or`. -/
def new_index_record (filename : String) (m : Metadata) : IndexRecord :=
  { url := m.url
    metadata_file := some filename
    id := pget m.fields "id"
    shortcode := pyOr (pget m.fields "shortcode") (pget m.fields "display_id") }

/-- Embedding of `tasks_lib.upsert_metadata_index(metadata_path, metadata)`.
`dirNonempty` models `os.path.dirname(metadata_path)` being non-empty (the
source returns early otherwise), `lines` is the current index content (`[]`
when the file is absent).  The source collects every parseable record whose
`url` differs from the document's url (dropping blank and malformed lines),
appends the new record, and rewrites the file with that list.  When the
document has no truthy `url` it returns without touching the file. -/
def upsert_metadata_index (dirNonempty : Bool) (lines : List Line)
    (filename : String) (m : Metadata) : List Line :=
  if !dirNonempty then lines
  else
    match m.url with
    | none => lines
    | some u =>
      if u = "" then lines
      else
        (lines.filterMap fun l =>
          match l with
          | .record r => if r.url = some u then none else some (Line.record r)
          | _ => none)
        ++ [Line.record (new_index_record filename m)]

/-- The sequence of index-file contents an observer can see while
`upsert_metadata_index` rewrites the file: the source opens the index with
mode `"w"` (truncating it) and then writes the kept records one line at a
time, so the observable states are the prefixes of the final content,
starting from the empty file.  On the early-return paths no write happens
and the content stays put. -/
def upsert_write_states (dirNonempty : Bool) (lines : List Line)
    (filename : String) (m : Metadata) : List (List Line) :=
  if !dirNonempty then [lines]
  else
    match m.url with
    | none => [lines]
    | some u =>
      if u = "" then [lines]
      else
        let final := upsert_metadata_index dirNonempty lines filename m
        (List.range (final.length + 1)).map fun k => final.take k

/-! ## call_router.py -/

/-- The key set of `call_router.TASK_DISPATCH` (task name → worker script). -/
def TASK_DISPATCH : List String :=
  ["perform_download", "apply_watermark", "make_clips", "extract_audio",
   "generate_captions", "post_process"]

/-- The input handed to a task's worker script: the raw url for
`perform_download`, the downloaded file path for every other task. -/
def task_input (url to_process t : String) : String :=
  if t = "perform_download" then url else to_process

/-- The worker invocations `call_router.execute_tasks` performs on a task
map: an entry is dispatched when its task has a script in `TASK_DISPATCH`,
its status is `True`, and this is not a dry run; `str` statuses (already
completed) and everything else are logged and skipped. -/
def invokedTasks (ts : List (String × TaskVal)) (url to_process : String)
    (dry : Bool) : List (String × String) :=
  ts.filterMap fun e =>
    match e.2 with
    | .bool true =>
      if TASK_DISPATCH.contains e.1 && !dry then
        some (e.1, task_input url to_process e.1)
      else none
    | _ => none

/-- Python `s.startswith(pre)` on the underlying character lists. -/
def listStartsWith (pre l : List Char) : Bool :=
  decide (l.take pre.length = pre)

/-- Python `s.endswith(suf)` on the underlying character lists (when `l` is
shorter than `suf` the dropped list keeps its length and the equality test
fails, so no extra guard is needed). -/
def listEndsWith (suf l : List Char) : Bool :=
  decide (l.drop (l.length - suf.length) = suf)

/-- Python `os.path.basename`: the part after the last `/`. -/
def baseNameOf (p : String) : String :=
  (p.splitOn "/").getLastD ""

/-- Python `os.path.splitext(n)[0]`: cut at the last dot, except that a
name consisting of leading dots only (like `.bashrc`) has no extension. -/
def stripLastExt (n : String) : String :=
  let cs := n.data
  match cs.reverse.findIdx? (· = '.') with
  | none => n
  | some j =>
    let i := cs.length - 1 - j
    if (cs.take i).all (· = '.') then n else ⟨cs.take i⟩

/-- The filenames in the directory of `to_process` that
`wait_for_download_file` treats as partial downloads: names starting with
the basename-without-extension of `to_process` and ending in `.part`. -/
def partCandidates (dirFiles : List String) (base : String) : List String :=
  dirFiles.filter fun n =>
    listStartsWith base.data n.data && listEndsWith ".part".data n.data

/-- The instants (seconds since entering the wait loop) at which the poll
loop of `wait_for_download_file` re-checks for the final file: every
`interval` seconds while the deadline `timeout` has not elapsed. -/
def pollTimes (timeout interval : Nat) : List Nat :=
  (List.range ((timeout + interval - 1) / interval)).map (· * interval)

/-- Embedding of `call_router.wait_for_download_file(to_process, logger,
timeout_seconds, poll_interval)`.  `existsAt t` tells whether `to_process`
is on disk `t` seconds after entry.  The source returns `True` immediately
when the file already exists; otherwise, **only if** some partial-download
candidate is present, it polls for the file at a fixed interval until the
deadline; with no candidate it returns `False` at once, and it returns
`False` when the deadline elapses. -/
def wait_for_download_file (existsAt : Nat → Bool) (hasPart : Bool)
    (timeout interval : Nat) : Bool :=
  if existsAt 0 then true
  else if !hasPart then false
  else (pollTimes timeout interval).any existsAt

/-- Modelled from the spec: §4.3 step 3's intended wait — "If the download's
recorded output path does not yet exist on disk … poll for existence with a
bounded timeout and fixed interval" — with no partial-file precondition.
Used only to compare the claim's wording against the code's behaviour. -/
def wait_poll_per_spec (existsAt : Nat → Bool) (timeout interval : Nat) : Bool :=
  if existsAt 0 then true
  else (pollTimes timeout interval).any existsAt

/-- The `perform_download` entry of a document, read the way `call_router.
main` reads it: `found_data.get("default_tasks", {}).get("perform_download")`. -/
def pddOf (m : Metadata) : Option TaskVal :=
  match m.defaultTasks with
  | some ts => alGet ts "perform_download"
  | none => none

/-- Python truthiness of an optional task value (`None`, `False`, and `""`
are falsy). -/
def truthyTV : Option TaskVal → Bool
  | some (.bool b) => b
  | some (.str s) => s ≠ ""
  | none => false

/-- The document `call_router.main` ends up working with: the first
`find_url_json` result when it both found a file and recorded a truthy
`perform_download`; otherwise the downloader is run and the second
`find_url_json` result (after the attempt) is used. -/
def router_resolved (first second : Option (String × Metadata)) :
    Option (String × Metadata) :=
  match first with
  | none => second
  | some (f, m) => if truthyTV (pddOf m) then some (f, m) else second

/-- Outcome of one `call_router.main` run. -/
inductive RouterResult where
  /-- no document found even after the download attempt: run aborts. -/
  | noMetadata
  /-- `perform_download` is not a string output path: run aborts. -/
  | notCompleted
  /-- the recorded output path never materialized: run aborts. -/
  | fileMissing
  /-- document has no (or an empty) `default_tasks` section: nothing to do. -/
  | noTasks
  /-- `execute_tasks` ran, invoking exactly these (task, input) workers. -/
  | ran (invoked : List (String × String))
  deriving DecidableEq, Repr

/-- Embedding of `call_router.main`'s control flow after argument parsing.
`first`/`second` are the `find_url_json` results before/after the download
attempt, `dirFiles` the listing of the download directory (for `.part`
candidates), `existsAt` the on-disk presence of the recorded output path
over time.  No document mutation happens here: only the workers invoked in
the `ran` outcome touch persisted state. -/
def router_main (first second : Option (String × Metadata))
    (dirFiles : List String) (existsAt : Nat → Bool) (dry : Bool)
    (url : String) : RouterResult :=
  match router_resolved first second with
  | none => .noMetadata
  | some (_, m) =>
    match pddOf m with
    | some (.str tp) =>
      let base := stripLastExt (baseNameOf tp)
      if wait_for_download_file existsAt (!(partCandidates dirFiles base).isEmpty) 90 3 then
        match m.defaultTasks with
        | none => .noTasks
        | some ts =>
          if ts.isEmpty then .noTasks
          else .ran (invokedTasks ts url tp dry)
      else .fileMissing
    | _ => .notCompleted

/-! ## cleanup_failed_url.py

The filesystem pieces cleanup touches are modelled as four separate stores,
matching the four disjoint places the script scans: the index file, the
metadata directory (non-recursive `*.json` glob), its `raw/` subdirectory,
and the configured output root.  Index `metadata_file` entries are the
basenames `upsert_metadata_index` writes, so they resolve inside the
metadata directory store. -/

/-- Python `sub in s` (substring containment) on character lists. -/
def listContainsSub (sub l : List Char) : Bool :=
  (List.range (l.length + 1)).any fun i => (l.drop i).take sub.length = sub

/-- Python `s.lower()` as a character list. -/
def lowerData (s : String) : List Char :=
  s.data.map Char.toLower

/-- The script's `PARTIAL_SUFFIXES` tuple (renamed), as character lists. -/
def PART_SUFFIXES : List (List Char) :=
  [".part".data, ".ytdl".data, ".tmp".data]

/-- Embedding of `cleanup_failed_url.slug_from_url`: the last non-empty
path segment of `urlparse(url).path`.  `urlparse` is modelled for the
common `scheme://host/path?query#fragment` shape: everything after the
first `://` loses its host (up to the next `/`), query and fragment are
cut, and without `://` the whole string is the path. -/
def slug_from_url (url : String) : String :=
  let path :=
    match url.splitOn "://" with
    | [] => url
    | [s] => s
    | _ :: rest =>
      match (String.intercalate "://" rest).splitOn "/" with
      | [] => ""
      | _ :: ps => String.intercalate "/" ps
  let path := (path.splitOn "#").headD ""
  let path := (path.splitOn "?").headD ""
  ((path.splitOn "/").filter fun p => p ≠ "").getLastD ""

/-- Embedding of `cleanup_failed_url.remove_matching_index_lines`: the
parsed records whose `url` matches are removed (and returned); malformed
lines are kept verbatim, blank lines are dropped; the file is rewritten
only when something matched and this is not a dry run.  Returns (removed
records, resulting index content). -/
def remove_matching_index_lines (lines : List Line) (url : String)
    (dry : Bool) : List IndexRecord × List Line :=
  let removed := (recordsOf lines).filter fun r => r.url = some url
  let kept := lines.filterMap fun l =>
    match l with
    | .blank => none
    | .malformed s => some (Line.malformed s)
    | .record r => if r.url = some url then none else some (Line.record r)
  if !removed.isEmpty && !dry then (removed, kept) else (removed, lines)

/-- Embedding of `cleanup_failed_url.find_metadata_files_for_url`: the
`*.json` files of the metadata directory (skipping `index.jsonl`) that
parse to a dict whose `url` field matches; returns their names and their
parsed contents, in directory order. -/
def find_metadata_files_for_url (metaFiles : DocStore) (url : String) :
    List String × List Metadata :=
  let hits := metaFiles.filterMap fun e =>
    if e.1 = "index.jsonl" then none
    else if listEndsWith ".json".data e.1.data then
      match e.2 with
      | some d => if d.url = some url then some (e.1, d) else none
      | none => none
    else none
  (hits.map Prod.fst, hits.map Prod.snd)

/-- The `token_fields` tuple of `collect_tokens_from_records`. -/
def token_fields : List String :=
  ["id", "display_id", "shortcode", "webpage_url_basename", "upload_date",
   "uploader", "uploader_id", "uploader_url", "title", "fulltitle"]

/-- Embedding of `cleanup_failed_url.collect_tokens_from_records`: for
every record and token field, a truthy value contributes its stripped text
and the underscored variant.  The source collects a `set`; it is only ever
consumed through membership tests (`any(... in ...)`), so a list with
duplicates is an equivalent model. -/
def collect_tokens_from_records (records : List Metadata) : List String :=
  records.flatMap fun r =>
    token_fields.flatMap fun f =>
      match pget r.fields f with
      | some v =>
        if v = "" then []
        else
          let token := v.trim
          if token = "" then [] else [token, token.replace " " "_"]
      | none => []

/-- Embedding of `cleanup_failed_url.find_output_json_files_for_url`: the
`*.json` files under the output root that parse to a dict whose `url`
matches. -/
def find_output_json_files_for_url (outFiles : DocStore) (url : String) :
    List String :=
  outFiles.filterMap fun e =>
    if listEndsWith ".json".data e.1.data then
      match e.2 with
      | some d => if d.url = some url then some e.1 else none
      | none => none
    else none

/-- Embedding of `cleanup_failed_url.remove_paths`: walk the path list in
order; a path that does not exist is skipped; in dry-run mode existing
paths are reported but the store is untouched; otherwise each existing
path is unlinked (deletion failures are environment conditions outside the
model) and reported.  Returns (removed paths, resulting store). -/
def remove_paths {α : Type} (dry : Bool) :
    List String → List (String × α) → List String × List (String × α)
  | [], store => ([], store)
  | p :: rest, store =>
    match alGet store p with
    | none => remove_paths dry rest store
    | some _ =>
      if dry then
        let s := remove_paths dry rest store
        (p :: s.1, s.2)
      else
        let s := remove_paths dry rest (store.filter fun e => e.1 ≠ p)
        (p :: s.1, s.2)

/-- Embedding of `cleanup_failed_url.collect_partial_candidates` (renamed):
files under the output root whose lowercased name ends in a partial suffix
and contains some lowercased truthy token. -/
def collect_part_candidates (outFiles : DocStore) (tokens : List String) :
    List String :=
  if tokens.isEmpty then []
  else
    outFiles.filterMap fun e =>
      let lname := lowerData e.1
      if (PART_SUFFIXES.any fun suf => listEndsWith suf lname)
          && tokens.any (fun t => t ≠ "" && listContainsSub (lowerData t) lname)
      then some e.1
      else none

/-- The filesystem state cleanup consumes: index content, metadata
directory, its `raw/` subdirectory (file names only; contents unread), and
the output root. -/
structure FS where
  indexLines : List Line
  metaFiles : DocStore
  rawFiles : List (String × Unit)
  outFiles : DocStore
  deriving DecidableEq

/-- What one cleanup run removed (or, dry, would remove), per category. -/
structure CleanReport where
  removedIndex : List IndexRecord
  removedMeta : List String
  removedRaw : List String
  removedSidecars : List String
  removedParts : List String
  deriving DecidableEq, Repr

/-- Embedding of `cleanup_failed_url.main` after argument parsing:
index-line removal, metadata-file removal (including files named by removed
index records), token-derived raw-capture removal, then — unless
`--skip-partials` is given or no output root is configured — partial
downloads matching the token set (extended with the stems of removed
metadata files and of matching output sidecars) and finally the sidecars
themselves.  All scans read the threaded state, so a real run's earlier
deletions are visible to its later scans exactly as on a real filesystem. -/
def cleanup (fs : FS) (url : String) (dry skipParts outputDirConfigured : Bool) :
    CleanReport × FS :=
  let idx := remove_matching_index_lines fs.indexLines url dry
  let found := find_metadata_files_for_url fs.metaFiles url
  let metaNames := idx.1.foldl
    (fun acc r =>
      match r.metadata_file with
      | some nm => if nm = "" then acc else if acc.contains nm then acc else acc ++ [nm]
      | none => acc)
    found.1
  let meta := remove_paths dry metaNames fs.metaFiles
  let rawTokens := slug_from_url url ::
    (collect_tokens_from_records found.2 ++
      idx.1.flatMap fun r =>
        (match r.id with
          | some v => if v = "" then [] else [v]
          | none => []) ++
        (match r.shortcode with
          | some v => if v = "" then [] else [v]
          | none => []))
  let rawCandidates := fs.rawFiles.filterMap fun e =>
    if rawTokens.any (fun t => t ≠ "" && listContainsSub t.data e.1.data)
    then some e.1 else none
  let raw := remove_paths dry rawCandidates fs.rawFiles
  if skipParts || !outputDirConfigured then
    ({ removedIndex := idx.1, removedMeta := meta.1, removedRaw := raw.1,
       removedSidecars := [], removedParts := [] },
     { indexLines := idx.2, metaFiles := meta.2, rawFiles := raw.2,
       outFiles := fs.outFiles })
  else
    let sidecars := find_output_json_files_for_url fs.outFiles url
    let partTokens := rawTokens ++ meta.1.map stripLastExt ++ sidecars.map stripLastExt
    let partCands := collect_part_candidates fs.outFiles partTokens
    let parts := remove_paths dry partCands fs.outFiles
    let side := remove_paths dry sidecars parts.2
    ({ removedIndex := idx.1, removedMeta := meta.1, removedRaw := raw.1,
       removedSidecars := side.1, removedParts := parts.1 },
     { indexLines := idx.2, metaFiles := meta.2, rawFiles := raw.2,
       outFiles := side.2 })

/-! ## Pipeline glue

`execute_tasks` (src/bin/call_router.py:32-54) dispatches each `True`
task's worker script with `subprocess.run(...)` (call_router.py:50) and
discards the result, so task dispatch itself never mutates the document:
`invokedTasks` is its full document-relevant behaviour.  The one
document write-back in a pipeline run lives in the download path:
`call_download.py`'s function chain ends with
`tasks_lib.write_masked_metadata_with_tasks` (call_download.py:147-153),
which saves the rebuilt document and upserts the index
(tasks_lib.py:480-483).  Of the other dispatch scripts, the one present in
src/ (`call_watermark.py`) only prints its output path, and
`update_task_output_path` has no caller anywhere in src/; the dispatch
scripts absent from src/ are accordingly modelled like the present one:
they do not write the document. -/

/-- One mutation of a persisted document: either of the two operations that
write task state (`update_task_output_path`, or a full
`write_masked_metadata_with_tasks` rebuild). -/
inductive DocOp where
  | update (task output_path : String)
  | createOverwrite (params : List (String × String))
      (registry : List (String × TaskVal))

/-- Apply one operation to the persisted document. -/
def applyOp (doc : Option Metadata) : DocOp → Option Metadata
  | .update t o => update_task_output_path doc t o
  | .createOverwrite ps reg => some (write_masked_metadata_with_tasks doc ps reg)

/-- Apply a sequence of operations, oldest first. -/
def applyOps (doc : Option Metadata) (ops : List DocOp) : Option Metadata :=
  ops.foldl applyOp doc

/-! ## Association-list lemmas -/

theorem alGet_alSet_self {α : Type} (l : List (String × α)) (k : String) (v : α) :
    alGet (alSet l k v) k = some v := by
  induction l with
  | nil => simp [alSet, alGet]
  | cons e rest ih =>
    obtain ⟨k', v'⟩ := e
    by_cases h : k' = k
    · simp [alSet, h, alGet]
    · simp [alSet, h, alGet, ih]

theorem alGet_alSet_ne {α : Type} (l : List (String × α)) (k k' : String) (v : α)
    (h : k ≠ k') : alGet (alSet l k v) k' = alGet l k' := by
  induction l with
  | nil => simp [alSet, alGet, h]
  | cons e rest ih =>
    obtain ⟨k0, v0⟩ := e
    by_cases h0 : k0 = k
    · subst h0
      simp [alSet, alGet, h]
    · simp only [alSet, if_neg h0]
      by_cases h1 : k0 = k'
      · simp [alGet, h1]
      · simp [alGet, h1, ih]

theorem alGet_append_left {α : Type} (l l2 : List (String × α)) (k : String)
    (v : α) (h : alGet l k = some v) : alGet (l ++ l2) k = some v := by
  induction l with
  | nil => simp [alGet] at h
  | cons e rest ih =>
    obtain ⟨k0, v0⟩ := e
    by_cases h0 : k0 = k
    · simp [alGet, h0] at h ⊢
      simpa using h
    · simp [alGet, h0] at h ⊢
      exact ih h

theorem alGet_alSetD_of_some {α : Type} (l : List (String × α)) (k k' : String)
    (v w : α) (h : alGet l k = some v) : alGet (alSetD l k' w) k = some v := by
  unfold alSetD
  cases hg : alGet l k' with
  | some _ => exact h
  | none => exact alGet_append_left l [(k', w)] k v h

theorem alGet_foldl_setD {α : Type} (reg : List (String × α)) :
    ∀ (l : List (String × α)) (k : String) (v : α), alGet l k = some v →
      alGet (reg.foldl (fun acc e => alSetD acc e.1 e.2) l) k = some v := by
  induction reg with
  | nil => intro l k v h; simpa using h
  | cons e rest ih =>
    intro l k v h
    simp only [List.foldl_cons]
    exact ih _ k v (alGet_alSetD_of_some l k e.1 v e.2 h)

theorem alSet_of_absent {α : Type} (l : List (String × α)) (k : String) (v : α)
    (h : alGet l k = none) : alSet l k v = l ++ [(k, v)] := by
  induction l with
  | nil => simp [alSet]
  | cons e rest ih =>
    obtain ⟨k0, v0⟩ := e
    by_cases h0 : k0 = k
    · simp [alGet, h0] at h
    · simp [alGet, h0] at h
      simp [alSet, h0, ih h]

/-- Applying any single store operation to a document keeps a completed
(string-valued) task completed: it can change the recorded path, but never
turns it back into a boolean. -/
theorem applyOp_keeps_str (doc : Option Metadata) (op : DocOp) (t p : String)
    (h : docTaskGet doc t = some (TaskVal.str p)) :
    ∃ q, docTaskGet (applyOp doc op) t = some (TaskVal.str q) := by
  match doc with
  | none => simp [docTaskGet] at h
  | some m =>
    match hdt : m.defaultTasks with
    | none => simp [docTaskGet, hdt] at h
    | some ts =>
      have hget : alGet ts t = some (TaskVal.str p) := by
        simpa [docTaskGet, hdt] using h
      cases op with
      | update t' o =>
        by_cases ho : o = ""
        · refine ⟨p, ?_⟩
          simpa [applyOp, update_task_output_path, ho] using h
        · by_cases ht : t' = t
          · refine ⟨o, ?_⟩
            subst ht
            simp [applyOp, update_task_output_path, ho, hdt, docTaskGet,
              alGet_alSet_self]
          · refine ⟨p, ?_⟩
            simp [applyOp, update_task_output_path, ho, hdt, docTaskGet,
              alGet_alSet_ne _ _ _ _ ht, hget]
      | createOverwrite ps reg =>
        simp only [applyOp, write_masked_metadata_with_tasks, hdt, docTaskGet,
          Option.bind_some]
        have h2 : alGet (reg.foldl (fun acc e => alSetD acc e.1 e.2) ts) t =
            some (TaskVal.str p) := alGet_foldl_setD reg ts t _ hget
        cases hout : out_path_of ps with
        | none => exact ⟨p, by simpa [hout] using h2⟩
        | some s =>
          by_cases hs : s = ""
          · exact ⟨p, by simpa [hout, hs] using h2⟩
          · by_cases hpd : t = "perform_download"
            · refine ⟨s, ?_⟩
              subst hpd
              simp [hout, hs, alGet_alSet_self]
            · refine ⟨p, ?_⟩
              simp [hout, hs, alGet_alSet_ne _ _ _ _ (Ne.symm hpd), h2]

/-- C1 (amended).  The claim as stated is false: `update_task_output_path`
overwrites an already-completed task with a different path (see the
counterexample).  What does hold is the regression half of the claim: over
every sequence of `update_task_output_path` /
`write_masked_metadata_with_tasks` calls, a task that is `Completed` (a
string output path) stays `Completed` — `Completed → Pending` is
impossible; only the recorded path may change. -/
theorem C1_completed_never_regresses (ops : List DocOp) (doc : Option Metadata)
    (t p : String) (h : docTaskGet doc t = some (TaskVal.str p)) :
    ∃ q, docTaskGet (applyOps doc ops) t = some (TaskVal.str q) := by
  induction ops generalizing doc p with
  | nil => exact ⟨p, h⟩
  | cons op rest ih =>
    obtain ⟨q, hq⟩ := applyOp_keeps_str doc op t p h
    obtain ⟨q', hq'⟩ := ih (applyOp doc op) q hq
    exact ⟨q', by simpa [applyOps, List.foldl_cons] using hq'⟩

/-- A document whose watermark task is completed at `/out/1_wm.mp4`. -/
def c1doc : Metadata :=
  { url := some "https://x/1"
    defaultTasks := some [("apply_watermark", TaskVal.str "/out/1_wm.mp4")]
    fields := [] }

/-- C1 (counterexample).  A single `update_task_output_path` call moves
`apply_watermark` from `Completed("/out/1_wm.mp4")` to
`Completed("/other/path.mp4")` — a `Completed(p1) → Completed(p2)`
transition with `p2 ≠ p1`, which the claim asserts no sequence of calls can
produce. -/
theorem C1_counterexample :
    docTaskGet (some c1doc) "apply_watermark" =
      some (TaskVal.str "/out/1_wm.mp4") ∧
    docTaskGet (update_task_output_path (some c1doc) "apply_watermark"
        "/other/path.mp4") "apply_watermark" =
      some (TaskVal.str "/other/path.mp4") ∧
    "/other/path.mp4" ≠ "/out/1_wm.mp4" :=
  ⟨rfl, rfl, by decide⟩

/-- C1 (witness): the amended theorem applied to `c1doc` and a concrete
operation sequence. -/
theorem C1_witness :
    docTaskGet (some c1doc) "apply_watermark" =
      some (TaskVal.str "/out/1_wm.mp4") ∧
    ∃ q, docTaskGet
        (applyOps (some c1doc)
          [DocOp.update "perform_download" "/v.mp4",
           DocOp.createOverwrite [("to_process", "/v2.mp4")] []])
        "apply_watermark" = some (TaskVal.str q) :=
  ⟨rfl, C1_completed_never_regresses
    [DocOp.update "perform_download" "/v.mp4",
     DocOp.createOverwrite [("to_process", "/v2.mp4")] []]
    (some c1doc) "apply_watermark" "/out/1_wm.mp4" rfl⟩

/-- A document whose `default_tasks` has only a pending download. -/
def c3doc : Metadata :=
  { url := some "https://x/1"
    defaultTasks := some [("perform_download", TaskVal.bool true)]
    fields := [] }

/-- C3 (counterexample).  Calling `update_task_output_path` with a task key
that is absent from `default_tasks` is not a no-op: the source assigns
`metadata["default_tasks"][task] = output_path` whenever a `default_tasks`
section exists, so the absent key `apply_watermark` is added and the
persisted document changes. -/
theorem C3_counterexample :
    docTaskGet (some c3doc) "apply_watermark" = none ∧
    update_task_output_path (some c3doc) "apply_watermark" "/out/wm.mp4" ≠
      some c3doc ∧
    docTaskGet (update_task_output_path (some c3doc) "apply_watermark"
        "/out/wm.mp4") "apply_watermark" = some (TaskVal.str "/out/wm.mp4") :=
  ⟨rfl, by decide, rfl⟩

/-- C3 (amended).  `update_task_output_path` is a no-op exactly when the
output path is empty, the metadata file is missing, or the document has no
`default_tasks` section; when the named task key is absent but a
`default_tasks` section exists and the output path is non-empty, the key is
appended with the supplied path (the document is modified, not left
unchanged). -/
theorem C3_update_noop_conditions (doc : Option Metadata) (t o : String) :
    (o = "" → update_task_output_path doc t o = doc) ∧
    (∀ m, doc = some m → m.defaultTasks = none →
      update_task_output_path doc t o = doc) ∧
    (doc = none → update_task_output_path doc t o = none) ∧
    (∀ m ts, doc = some m → m.defaultTasks = some ts → o ≠ "" →
      alGet ts t = none →
      update_task_output_path doc t o =
        some { m with defaultTasks := some (ts ++ [(t, TaskVal.str o)]) }) := by
  refine ⟨?_, ?_, ?_, ?_⟩
  · intro ho
    cases doc with
    | none => rfl
    | some m => simp [update_task_output_path, ho]
  · intro m hm hdt
    subst hm
    by_cases ho : o = ""
    · simp [update_task_output_path, ho]
    · simp [update_task_output_path, ho, hdt]
  · intro h
    subst h
    rfl
  · intro m ts hm hdt ho habs
    subst hm
    simp [update_task_output_path, ho, hdt, alSet_of_absent ts t _ habs]

/-- C3 (witness): the amended theorem applied at concrete inputs — an empty
output path is a no-op, and an absent key with a non-empty path appends the
key. -/
theorem C3_witness :
    update_task_output_path (some c3doc) "apply_watermark" "" = some c3doc ∧
    update_task_output_path (some c3doc) "apply_watermark" "/out/wm.mp4" =
      some { c3doc with defaultTasks := some (("perform_download",
        TaskVal.bool true) :: [("apply_watermark", TaskVal.str "/out/wm.mp4")]) } :=
  ⟨(C3_update_noop_conditions (some c3doc) "apply_watermark" "").1 rfl,
   (C3_update_noop_conditions (some c3doc) "apply_watermark"
      "/out/wm.mp4").2.2.2 c3doc _ rfl rfl (by decide) rfl⟩

/-! ## Index scan lemmas (C2, C10, C6, C8) -/

/-- The value the `find_url_json` scan accumulator ends with, given the
matching records in order: the last one's `metadata_file` (or the incoming
accumulator when none match). -/
def lastMetaFile (ms : List IndexRecord) (acc : Option String) : Option String :=
  match ms with
  | [] => acc
  | r :: rest => lastMetaFile rest r.metadata_file

theorem scan_index_go (u : String) (lines : List Line) :
    ∀ acc : Option String,
      lines.foldl
        (fun acc l =>
          match l with
          | .record r => if r.url = some u then r.metadata_file else acc
          | _ => acc)
        acc
      = lastMetaFile (matchingRecords lines u) acc := by
  induction lines with
  | nil => intro acc; simp [matchingRecords, recordsOf, lastMetaFile]
  | cons l rest ih =>
    intro acc
    cases l with
    | blank => simpa [matchingRecords, recordsOf] using ih acc
    | malformed s => simpa [matchingRecords, recordsOf] using ih acc
    | record r =>
      by_cases h : r.url = some u
      · simp [matchingRecords, recordsOf, h, lastMetaFile, ih,
          List.filter_cons]
      · simp [matchingRecords, recordsOf, h, ih, List.filter_cons]

theorem lastMetaFile_eq_getLast :
    ∀ (ms : List IndexRecord) (h : ms ≠ []) (acc : Option String),
      lastMetaFile ms acc = (ms.getLast h).metadata_file := by
  intro ms
  induction ms with
  | nil => intro h; cases h rfl
  | cons r rest ih =>
    intro h acc
    cases rest with
    | nil => simp [lastMetaFile, List.getLast]
    | cons r2 rest2 =>
      rw [lastMetaFile, ih (by simp) r.metadata_file]
      rfl

/-- C2.  When the index holds at least one record for the queried url, the
scan of `find_url_json` resolves to the `metadata_file` of the **last**
matching record (most recent write wins, later records shadowing earlier
ones); and when that record names a document file that is absent from the
store, the lookup returns `NotFound` (`(None, None)`) rather than a partial
result — while a present, parseable file yields that filename and document. -/
theorem C2_lookup_last_write_wins (lines : List Line) (docs : DocStore)
    (u : String) (h : matchingRecords lines u ≠ []) :
    scan_index lines u = ((matchingRecords lines u).getLast h).metadata_file ∧
    (∀ mf, ((matchingRecords lines u).getLast h).metadata_file = some mf →
      mf ≠ "" → alGet docs mf = none →
      find_url_json true true lines docs u = none) ∧
    (∀ mf d, ((matchingRecords lines u).getLast h).metadata_file = some mf →
      mf ≠ "" → alGet docs mf = some (some d) →
      find_url_json true true lines docs u = some (mf, d)) := by
  have hscan : scan_index lines u =
      ((matchingRecords lines u).getLast h).metadata_file := by
    rw [scan_index, scan_index_go u lines none, lastMetaFile_eq_getLast _ h]
  refine ⟨hscan, ?_, ?_⟩
  · intro mf hmf hne hdocs
    simp [find_url_json, hscan, hmf, hne, hdocs]
  · intro mf d hmf hne hdocs
    simp [find_url_json, hscan, hmf, hne, hdocs]

/-- The index lines from the C2 scenario: two records for the same url with
distinct document filenames separated by a malformed line; the later record
must win. -/
def c2lines : List Line :=
  [Line.record ⟨some "https://x/1", some "a.json", none, none⟩,
   Line.malformed "not json",
   Line.record ⟨some "https://x/1", some "b.json", none, none⟩]

/-- The document the C2 scenario stores under the winning filename. -/
def c2doc : Metadata :=
  { url := some "https://x/1"
    defaultTasks := some [("perform_download", TaskVal.str "/out/1.mp4")]
    fields := [] }

/-- C2 (witness): on `c2lines` the last matching record (`b.json`) wins when
present, and its absence yields `NotFound` even though `a.json` exists. -/
theorem C2_witness :
    find_url_json true true c2lines [("b.json", some c2doc)] "https://x/1" =
      some ("b.json", c2doc) ∧
    find_url_json true true c2lines [("a.json", some c2doc)] "https://x/1" =
      none :=
  ⟨(C2_lookup_last_write_wins c2lines [("b.json", some c2doc)] "https://x/1"
      (by decide)).2.2 "b.json" c2doc (by decide) (by decide) rfl,
   (C2_lookup_last_write_wins c2lines [("a.json", some c2doc)] "https://x/1"
      (by decide)).2.1 "b.json" (by decide) (by decide) rfl⟩

/-- Whether an index line parsed as a record (the lines `find_url_json`
does not skip). -/
def isParsedLine : Line → Bool
  | .record _ => true
  | _ => false

theorem recordsOf_filter_parsed (lines : List Line) :
    recordsOf (lines.filter isParsedLine) = recordsOf lines := by
  induction lines with
  | nil => rfl
  | cons l rest ih =>
    cases l with
    | blank => simpa [recordsOf, isParsedLine, List.filter_cons] using ih
    | malformed s => simpa [recordsOf, isParsedLine, List.filter_cons] using ih
    | record r =>
      simp [recordsOf, isParsedLine, List.filter_cons] at ih ⊢
      exact ih

theorem scan_index_filter_parsed (lines : List Line) (u : String) :
    scan_index (lines.filter isParsedLine) u = scan_index lines u := by
  rw [scan_index, scan_index_go u, scan_index, scan_index_go u,
    matchingRecords, matchingRecords, recordsOf_filter_parsed]

/-- C10.  Blank lines and lines that fail to parse as JSON are skipped by
the lookup (the Lean model is total, so "never raises" is inherent): the
result of `find_url_json` over any index content equals its result over the
same content with every blank/malformed line deleted — a malformed line
never masks a later valid record, and the last well-formed matching record
still wins. -/
theorem C10_malformed_lines_tolerated (lines : List Line) (docs : DocStore)
    (dirE idxE : Bool) (u : String) :
    find_url_json dirE idxE (lines.filter isParsedLine) docs u =
      find_url_json dirE idxE lines docs u := by
  rw [find_url_json, find_url_json, scan_index_filter_parsed]

/-- C6.  After a successful upsert (the document has a truthy url), the
rewritten index contains exactly one record for that url — the newly built
record — and every parsed record for any other url survives. -/
theorem C6_upsert_dedup (lines : List Line) (filename : String) (m : Metadata)
    (u : String) (hm : m.url = some u) (hu : u ≠ "") :
    ((recordsOf (upsert_metadata_index true lines filename m)).filter
        (fun r => r.url = some u) = [new_index_record filename m]) ∧
    (∀ r ∈ recordsOf lines, r.url ≠ some u →
        r ∈ recordsOf (upsert_metadata_index true lines filename m)) := by
  have hres : upsert_metadata_index true lines filename m =
      (lines.filterMap fun l =>
        match l with
        | .record r => if r.url = some u then none else some (Line.record r)
        | _ => none)
      ++ [Line.record (new_index_record filename m)] := by
    rw [upsert_metadata_index, hm]
    simp [hu]
  have hkept : ∀ lines0 : List Line,
      recordsOf (lines0.filterMap fun l =>
        match l with
        | .record r => if r.url = some u then none else some (Line.record r)
        | _ => none)
      = (recordsOf lines0).filter fun r => ¬ r.url = some u := by
    intro lines0
    induction lines0 with
    | nil => rfl
    | cons l rest ih =>
      cases l with
      | blank => simpa [recordsOf, List.filter_cons] using ih
      | malformed s => simpa [recordsOf, List.filter_cons] using ih
      | record r =>
        by_cases h : r.url = some u
        · simpa [recordsOf, h, List.filter_cons] using ih
        · simp [recordsOf, h, List.filter_cons] at ih ⊢
          exact ih
  have hnew : (new_index_record filename m).url = some u := by
    simp [new_index_record, hm]
  constructor
  · rw [hres, recordsOf, List.filterMap_append, ← recordsOf, ← recordsOf,
      hkept, List.filter_append, List.filter_filter]
    simp [recordsOf, List.filter_cons, hnew]
  · intro r hr hne
    rw [hres, recordsOf, List.filterMap_append]
    apply List.mem_append_left
    rw [← recordsOf, hkept]
    simp [List.mem_filter, hr, hne]

/-- C6 (witness): upserting url `https://x/1` over an index holding a stale
record for it plus a record for another url leaves exactly the new record
for that url and preserves the other. -/
theorem C6_witness :
    ((recordsOf (upsert_metadata_index true c2lines "c.json" c2doc)).filter
        (fun r => r.url = some "https://x/1") =
      [new_index_record "c.json" c2doc]) ∧
    (recordsOf (upsert_metadata_index true
        (Line.record ⟨some "https://y/2", some "y.json", none, none⟩ :: c2lines)
        "c.json" c2doc)).filter
        (fun r => r.url = some "https://x/1") =
      [new_index_record "c.json" c2doc] :=
  ⟨(C6_upsert_dedup c2lines "c.json" c2doc "https://x/1" rfl (by decide)).1,
   (C6_upsert_dedup
      (Line.record ⟨some "https://y/2", some "y.json", none, none⟩ :: c2lines)
      "c.json" c2doc "https://x/1" rfl (by decide)).1⟩

/-- A pre-existing index record for a different url, which a later upsert
must carry over into the rewritten index. -/
def c8record : IndexRecord := ⟨some "https://x/old", some "old.json", none, none⟩

/-- The index content before the C8 upsert. -/
def c8lines : List Line := [Line.record c8record]

/-- The document whose save triggers the C8 upsert. -/
def c8meta : Metadata :=
  { url := some "https://x/new", defaultTasks := none, fields := [] }

/-- C8 (counterexample).  `upsert_metadata_index` opens the index with mode
`"w"` — truncating it in place — and then writes the records one line at a
time; it is not write-to-temp-then-rename.  Concretely: before the upsert
the index holds `c8record` (for an unrelated url, so the upsert must keep
it, and indeed the final content contains it), yet the first observable
state of the rewrite is the **empty file**, which is neither the previous
content nor the final content — an observer at that instant sees the
previously persisted record gone. -/
theorem C8_counterexample :
    (upsert_write_states true c8lines "new.json" c8meta).head? = some [] ∧
    Line.record c8record ∈ c8lines ∧
    Line.record c8record ∈ upsert_metadata_index true c8lines "new.json" c8meta ∧
    ([] : List Line) ≠ c8lines ∧
    ([] : List Line) ≠ upsert_metadata_index true c8lines "new.json" c8meta := by
  refine ⟨rfl, by decide, by decide, by decide, by decide⟩

/-- C8 (amended).  The rewrite is in-place truncate-then-append, not
atomic: every index state observable during the rewrite is a prefix of the
final compacted content (so a failure partway leaves such a prefix — the
empty file in the worst case — rather than the previous content), and a
completed rewrite leaves exactly `upsert_metadata_index`'s result. -/
theorem C8_rewrite_in_place (dirNE : Bool) (lines : List Line)
    (filename : String) (m : Metadata) :
    (∀ s ∈ upsert_write_states dirNE lines filename m,
      ∃ k, s = (upsert_metadata_index dirNE lines filename m).take k) ∧
    (upsert_write_states dirNE lines filename m).getLast? =
      some (upsert_metadata_index dirNE lines filename m) := by
  by_cases hdir : dirNE = true
  · subst hdir
    cases hurl : m.url with
    | none =>
      constructor
      · intro s hs
        simp [upsert_write_states, hurl] at hs
        subst hs
        exact ⟨s.length, by simp [upsert_metadata_index, hurl]⟩
      · simp [upsert_write_states, upsert_metadata_index, hurl]
    | some u =>
      by_cases hu : u = ""
      · constructor
        · intro s hs
          simp [upsert_write_states, hurl, hu] at hs
          subst hs
          exact ⟨s.length, by simp [upsert_metadata_index, hurl, hu]⟩
        · simp [upsert_write_states, upsert_metadata_index, hurl, hu]
      · have hstates : upsert_write_states true lines filename m =
            (List.range
              ((upsert_metadata_index true lines filename m).length + 1)).map
              (fun k => (upsert_metadata_index true lines filename m).take k) := by
          rw [upsert_write_states, hurl]
          simp [hu]
        constructor
        · intro s hs
          rw [hstates] at hs
          obtain ⟨k, _, hk⟩ := List.mem_map.mp hs
          exact ⟨k, hk.symm⟩
        · rw [hstates, List.range_succ, List.map_append]
          simp
  · have hdir' : dirNE = false := by
      cases dirNE
      · rfl
      · cases hdir rfl
    subst hdir'
    constructor
    · intro s hs
      simp [upsert_write_states] at hs
      subst hs
      exact ⟨s.length, by simp [upsert_metadata_index]⟩
    · simp [upsert_write_states, upsert_metadata_index]

/-- C8 (witness): the amended theorem applied to the concrete C8 state —
the empty first write state is a prefix (take 0) of the final content. -/
theorem C8_witness :
    ∃ k, ([] : List Line) =
      (upsert_metadata_index true c8lines "new.json" c8meta).take k :=
  (C8_rewrite_in_place true c8lines "new.json" c8meta).1 [] (by decide)

/-! ## write_masked_metadata_with_tasks (C5) -/

theorem alGet_append_right {α : Type} (l l2 : List (String × α)) (k : String)
    (h : alGet l k = none) : alGet (l ++ l2) k = alGet l2 k := by
  induction l with
  | nil => simp
  | cons e rest ih =>
    obtain ⟨k0, v0⟩ := e
    by_cases h0 : k0 = k
    · simp [alGet, h0] at h
    · simp [alGet, h0] at h ⊢
      exact ih h

theorem alGet_alSetD_ne {α : Type} (l : List (String × α)) (k k' : String)
    (w : α) (h : k' ≠ k) : alGet (alSetD l k' w) k = alGet l k := by
  unfold alSetD
  cases hg : alGet l k' with
  | some _ => rfl
  | none =>
    cases hk : alGet l k with
    | some v => exact alGet_append_left l [(k', w)] k v hk
    | none => simp [alGet_append_right l [(k', w)] k hk, alGet, h]

theorem alGet_foldl_setD_absent {α : Type} (reg : List (String × α)) :
    ∀ (l : List (String × α)) (k : String) (v : α), alGet l k = none →
      alGet reg k = some v →
      alGet (reg.foldl (fun acc e => alSetD acc e.1 e.2) l) k = some v := by
  induction reg with
  | nil => intro l k v _ hr; simp [alGet] at hr
  | cons e rest ih =>
    intro l k v hl hr
    obtain ⟨k0, v0⟩ := e
    simp only [List.foldl_cons]
    by_cases hk : k0 = k
    · subst hk
      have hv : v0 = v := by simpa [alGet] using hr
      subst hv
      have hset : alGet (alSetD l k0 v0) k0 = some v0 := by
        unfold alSetD
        rw [hl, alGet_append_right l [(k0, v0)] k0 hl]
        simp [alGet]
      exact alGet_foldl_setD rest _ k0 v0 hset
    · have hr' : alGet rest k = some v := by simpa [alGet, hk] using hr
      have hl' : alGet (alSetD l k0 v0) k = none := by
        rw [alGet_alSetD_ne l k k0 v0 hk, hl]
      exact ih _ k v hl' hr'

/-- A prior document version carrying a completed download, a completed
watermark, and a raw extractor field that the rebuild must drop. -/
def c5prior : Metadata :=
  { url := some "https://x/1"
    defaultTasks := some [("perform_download", TaskVal.str "/out/old.mp4")]
    fields := [("raw_field", "junk")] }

/-- C5 (counterexample).  With a prior version whose `perform_download` is
`Completed("/out/old.mp4")` and a params set carrying
`to_process = "/out/new.mp4"`, the rebuilt document records
`Completed("/out/new.mp4")`: the already-completed entry is **not**
preserved — `write_masked_metadata_with_tasks` force-sets
`default_tasks["perform_download"]` from the params' output path. -/
theorem C5_counterexample :
    docTaskGet (some c5prior) "perform_download" =
      some (TaskVal.str "/out/old.mp4") ∧
    (write_masked_metadata_with_tasks (some c5prior)
        [("to_process", "/out/new.mp4")] []).defaultTasks =
      some [("perform_download", TaskVal.str "/out/new.mp4")] ∧
    "/out/new.mp4" ≠ "/out/old.mp4" :=
  ⟨rfl, rfl, by decide⟩

/-- The task map `write_masked_metadata_with_tasks` ends up with, extracted
for reuse in proofs. -/
def wmTasks (existing : Option Metadata) (params : List (String × String))
    (registry : List (String × TaskVal)) : List (String × TaskVal) :=
  let dt1 :=
    match existing with
    | some m =>
      match m.defaultTasks with
      | some l => l
      | none => []
    | none => []
  let dt2 := registry.foldl (fun acc e => alSetD acc e.1 e.2) dt1
  match out_path_of params with
  | some s => if s = "" then dt2 else alSet dt2 "perform_download" (.str s)
  | none => dt2

theorem wm_defaultTasks (existing : Option Metadata)
    (params : List (String × String)) (registry : List (String × TaskVal)) :
    (write_masked_metadata_with_tasks existing params registry).defaultTasks =
      some (wmTasks existing params registry) := by
  cases existing with
  | none => rfl
  | some m => cases m.defaultTasks <;> rfl

/-- C5 (amended).  The rebuild drops every field outside the allow-list
(each surviving field is an allow-listed key with its params value, so
unlisted/raw fields of the prior version are gone), the registry seeds only
keys not already present (a present entry keeps its value; an absent key
receives its registry default), and every previously `Completed` task is
still `Completed` with the same path — **except** `perform_download`, which
is preserved only when the params carry no truthy
`to_process`/`original_filename` (otherwise it is overwritten, see the
counterexample). -/
theorem C5_sanitize_seed_preserve (existing : Option Metadata)
    (params : List (String × String)) (registry : List (String × TaskVal)) :
    (∀ k v,
      (k, v) ∈ (write_masked_metadata_with_tasks existing params registry).fields →
      k ∈ masked_keys ∧ pget params k = some v) ∧
    (∀ prior ts t v, existing = some prior → prior.defaultTasks = some ts →
      alGet ts t = some v → t ≠ "perform_download" →
      ∃ ts', (write_masked_metadata_with_tasks existing params registry).defaultTasks
          = some ts' ∧ alGet ts' t = some v) ∧
    (∀ prior ts v, existing = some prior → prior.defaultTasks = some ts →
      alGet ts "perform_download" = some v →
      (out_path_of params = none ∨ out_path_of params = some "") →
      ∃ ts', (write_masked_metadata_with_tasks existing params registry).defaultTasks
          = some ts' ∧ alGet ts' "perform_download" = some v) ∧
    (∀ prior ts t v, existing = some prior → prior.defaultTasks = some ts →
      alGet ts t = none → alGet registry t = some v → t ≠ "perform_download" →
      ∃ ts', (write_masked_metadata_with_tasks existing params registry).defaultTasks
          = some ts' ∧ alGet ts' t = some v) := by
  refine ⟨?_, ?_, ?_, ?_⟩
  · intro k v hmem
    simp only [write_masked_metadata_with_tasks, List.mem_filterMap] at hmem
    obtain ⟨a, ha, hav⟩ := hmem
    cases hp : pget params a with
    | none => rw [hp] at hav; simp at hav
    | some w =>
      rw [hp] at hav
      have hkv : a = k ∧ w = v := by simpa [Prod.ext_iff] using hav
      exact ⟨hkv.1 ▸ ha, by rw [← hkv.1, hp, hkv.2]⟩
  · intro prior ts t v hex hdt hget hne
    subst hex
    have h2 : alGet (registry.foldl (fun acc e => alSetD acc e.1 e.2) ts) t =
        some v := alGet_foldl_setD registry ts t v hget
    refine ⟨wmTasks (some prior) params registry,
      wm_defaultTasks (some prior) params registry, ?_⟩
    cases hout : out_path_of params with
    | none => simpa [wmTasks, hdt, hout] using h2
    | some s =>
      by_cases hs : s = ""
      · simpa [wmTasks, hdt, hout, hs] using h2
      · simpa [wmTasks, hdt, hout, hs, alGet_alSet_ne _ _ _ _ (Ne.symm hne)]
          using h2
  · intro prior ts v hex hdt hget hout
    subst hex
    have h2 : alGet (registry.foldl (fun acc e => alSetD acc e.1 e.2) ts)
        "perform_download" = some v := alGet_foldl_setD registry ts _ v hget
    refine ⟨wmTasks (some prior) params registry,
      wm_defaultTasks (some prior) params registry, ?_⟩
    rcases hout with h | h <;> simpa [wmTasks, hdt, h] using h2
  · intro prior ts t v hex hdt habs hreg hne
    subst hex
    have h2 : alGet (registry.foldl (fun acc e => alSetD acc e.1 e.2) ts) t =
        some v := alGet_foldl_setD_absent registry ts t v habs hreg
    refine ⟨wmTasks (some prior) params registry,
      wm_defaultTasks (some prior) params registry, ?_⟩
    cases hout : out_path_of params with
    | none => simpa [wmTasks, hdt, hout] using h2
    | some s =>
      by_cases hs : s = ""
      · simpa [wmTasks, hdt, hout, hs] using h2
      · simpa [wmTasks, hdt, hout, hs, alGet_alSet_ne _ _ _ _ (Ne.symm hne)]
          using h2

/-- A prior version with a completed watermark, used by the C5 witness. -/
def c5wm : Metadata :=
  { url := some "https://x/1"
    defaultTasks := some [("apply_watermark", TaskVal.str "/out/wm.mp4")]
    fields := [] }

/-- C5 (witness): the amended theorem applied concretely — a completed
non-download task survives a rebuild that also supplies a new download
path, and an absent registry task is seeded. -/
theorem C5_witness :
    (∃ ts', (write_masked_metadata_with_tasks (some c5wm)
        [("to_process", "/out/new.mp4")]
        [("make_clips", TaskVal.bool true)]).defaultTasks = some ts' ∧
      alGet ts' "apply_watermark" = some (TaskVal.str "/out/wm.mp4")) ∧
    (∃ ts', (write_masked_metadata_with_tasks (some c5wm)
        [("to_process", "/out/new.mp4")]
        [("make_clips", TaskVal.bool true)]).defaultTasks = some ts' ∧
      alGet ts' "make_clips" = some (TaskVal.bool true)) :=
  ⟨(C5_sanitize_seed_preserve (some c5wm) [("to_process", "/out/new.mp4")]
      [("make_clips", TaskVal.bool true)]).2.1 c5wm _ "apply_watermark" _
      rfl rfl rfl (by decide),
   (C5_sanitize_seed_preserve (some c5wm) [("to_process", "/out/new.mp4")]
      [("make_clips", TaskVal.bool true)]).2.2.2 c5wm _ "make_clips" _
      rfl rfl rfl rfl (by decide)⟩

/-! ## Download gate (C7) -/

/-- An on-disk trace where the recorded output path materializes 3 seconds
after the wait begins (well within the 90-second deadline). -/
def c7exists : Nat → Bool := fun t => decide (3 ≤ t)

/-- C7 (counterexample).  With no `.part` candidate in the directory,
`wait_for_download_file` returns `False` immediately — it does **not** poll
— even on a trace where the file appears at t = 3s, squarely inside the
deadline; the spec-worded wait (poll whenever the path does not yet exist,
`wait_poll_per_spec`) succeeds on the same trace.  So the claim's "if the
recorded output path does not yet exist, the run polls for its existence"
is false on the code: polling happens only when a partial-download file is
present. -/
theorem C7_counterexample :
    wait_for_download_file c7exists false 90 3 = false ∧
    c7exists 3 = true ∧
    (3 : Nat) ∈ pollTimes 90 3 ∧
    wait_poll_per_spec c7exists 90 3 = true :=
  ⟨rfl, rfl, by decide, by decide⟩

/-- C7 (amended).  The download gate, as the code implements it: (1) the
router reaches `execute_tasks` (outcome `ran`) only when the document
resolved after the download attempt records `perform_download` as a string
path and `wait_for_download_file` succeeded for it; (2) with no `.part`
candidate the wait is decided by the initial existence check alone — no
polling; (3) a successful wait found the file either immediately or at one
of the poll instants; (4) the poll instants lie strictly inside the
90-second deadline at a fixed 3-second interval; (5) when the wait fails
the run ends in `fileMissing` (the spec's `DownloadPending`) — and since
`router_main` mutates nothing and only `ran` carries worker invocations,
the document's task states are untouched and no later task is attempted. -/
theorem C7_download_gate (first second : Option (String × Metadata))
    (dirFiles : List String) (existsAt : Nat → Bool) (dry : Bool)
    (url : String) :
    (∀ inv, router_main first second dirFiles existsAt dry url = .ran inv →
      ∃ f m tp, router_resolved first second = some (f, m) ∧
        pddOf m = some (TaskVal.str tp) ∧
        wait_for_download_file existsAt
          (!(partCandidates dirFiles (stripLastExt (baseNameOf tp))).isEmpty)
          90 3 = true) ∧
    (∀ e : Nat → Bool, wait_for_download_file e false 90 3 = e 0) ∧
    (∀ (e : Nat → Bool) (hp : Bool), wait_for_download_file e hp 90 3 = true →
      e 0 = true ∨ ∃ t ∈ pollTimes 90 3, e t = true) ∧
    (∀ t ∈ pollTimes 90 3, t < 90 ∧ t % 3 = 0) ∧
    (∀ f m tp, router_resolved first second = some (f, m) →
      pddOf m = some (TaskVal.str tp) →
      wait_for_download_file existsAt
        (!(partCandidates dirFiles (stripLastExt (baseNameOf tp))).isEmpty)
        90 3 = false →
      router_main first second dirFiles existsAt dry url = .fileMissing) := by
  refine ⟨?_, ?_, ?_, ?_, ?_⟩
  · intro inv hran
    cases hres : router_resolved first second with
    | none => simp [router_main, hres] at hran
    | some fm =>
      obtain ⟨f, m⟩ := fm
      cases hpdd : pddOf m with
      | none => simp [router_main, hres, hpdd] at hran
      | some tv =>
        cases tv with
        | bool b => simp [router_main, hres, hpdd] at hran
        | str tp =>
          refine ⟨f, m, tp, rfl, hpdd, ?_⟩
          by_contra hwait
          have hwait' : wait_for_download_file existsAt
              (!(partCandidates dirFiles
                (stripLastExt (baseNameOf tp))).isEmpty) 90 3 = false := by
            cases hw : wait_for_download_file existsAt
                (!(partCandidates dirFiles
                  (stripLastExt (baseNameOf tp))).isEmpty) 90 3
            · rfl
            · exact absurd hw hwait
          simp [router_main, hres, hpdd, hwait'] at hran
  · intro e
    cases he : e 0 <;> simp [wait_for_download_file, he]
  · intro e hp hw
    cases he : e 0
    · cases hhp : hp
      · subst hhp
        simp [wait_for_download_file, he] at hw
      · right
        subst hhp
        simp only [wait_for_download_file, he, Bool.not_true, if_false,
          Bool.false_eq_true] at hw
        simpa [List.any_eq_true] using hw
    · exact Or.inl rfl
  · decide
  · intro f m tp hres hpdd hwait
    simp [router_main, hres, hpdd, hwait]

/-- A resolved document with a completed download and a pending watermark,
for the C7 witness. -/
def c7doc : Metadata :=
  { url := some "https://x/1"
    defaultTasks := some [("perform_download", TaskVal.str "/out/v.mp4"),
      ("apply_watermark", TaskVal.bool true)]
    fields := [] }

/-- C7 (witness): the amended theorem applied at concrete inputs — a run
that dispatched its pending task did so behind a completed download and a
successful wait, and on the no-part-file trace the run ends `fileMissing`. -/
theorem C7_witness :
    (∃ f m tp,
      router_resolved (some ("d.json", c7doc)) none = some (f, m) ∧
      pddOf m = some (TaskVal.str tp) ∧
      wait_for_download_file (fun _ => true)
        (!(partCandidates [] (stripLastExt (baseNameOf tp))).isEmpty)
        90 3 = true) ∧
    router_main (some ("d.json", c7doc)) none [] c7exists false "https://x/1" =
      .fileMissing :=
  ⟨(C7_download_gate (some ("d.json", c7doc)) none [] (fun _ => true) false
      "https://x/1").1 [("apply_watermark", "/out/v.mp4")] rfl,
   (C7_download_gate (some ("d.json", c7doc)) none [] c7exists false
      "https://x/1").2.2.2.2 "d.json" c7doc "/out/v.mp4" rfl rfl rfl⟩

/-! ## Idempotent re-run (C4) -/

theorem invoked_keys_sub (url tp : String) (dry : Bool) :
    ∀ (ts : List (String × TaskVal)) (x : String),
      x ∈ (invokedTasks ts url tp dry).map Prod.fst → x ∈ ts.map Prod.fst := by
  intro ts
  induction ts with
  | nil => intro x hx; simp [invokedTasks] at hx
  | cons e rest ih =>
    intro x hx
    obtain ⟨k0, v0⟩ := e
    rw [invokedTasks, List.filterMap_cons] at hx
    cases v0 with
    | bool b =>
      cases b
      · exact List.mem_cons_of_mem _ (ih x hx)
      · by_cases hc : (TASK_DISPATCH.contains k0 && !dry) = true
        · rw [if_pos hc] at hx
          simp only [List.map_cons, List.mem_cons] at hx
          rcases hx with h | h
          · simp [h]
          · exact List.mem_cons_of_mem _ (ih x h)
        · rw [if_neg hc] at hx
          exact List.mem_cons_of_mem _ (ih x hx)
    | str s => exact List.mem_cons_of_mem _ (ih x hx)

theorem completed_not_invoked (url tp : String) (dry : Bool) :
    ∀ (ts : List (String × TaskVal)) (t p : String),
      (ts.map Prod.fst).Nodup → alGet ts t = some (TaskVal.str p) →
      t ∉ (invokedTasks ts url tp dry).map Prod.fst := by
  intro ts
  induction ts with
  | nil => intro t p _ hget; simp [alGet] at hget
  | cons e rest ih =>
    intro t p hnd hget
    obtain ⟨k0, v0⟩ := e
    have hnd2 : (k0 :: rest.map Prod.fst).Nodup := by
      simpa only [List.map_cons] using hnd
    have hnotin : k0 ∉ rest.map Prod.fst := (List.nodup_cons.mp hnd2).1
    have hnd' : (rest.map Prod.fst).Nodup := (List.nodup_cons.mp hnd2).2
    by_cases he : k0 = t
    · have hv : v0 = TaskVal.str p := by simpa [alGet, he] using hget
      subst hv
      subst he
      intro hcontra
      rw [invokedTasks, List.filterMap_cons] at hcontra
      simp only at hcontra
      exact hnotin (invoked_keys_sub url tp dry rest k0 hcontra)
    · have hget2 : alGet rest t = some (TaskVal.str p) := by
        simpa [alGet, he] using hget
      intro hcontra
      rw [invokedTasks, List.filterMap_cons] at hcontra
      cases v0 with
      | bool b =>
        cases b
        · exact ih t p hnd' hget2 hcontra
        · by_cases hc : (TASK_DISPATCH.contains k0 && !dry) = true
          · rw [if_pos hc] at hcontra
            simp only [List.map_cons, List.mem_cons] at hcontra
            rcases hcontra with h | h
            · exact he h.symm
            · exact ih t p hnd' hget2 h
          · rw [if_neg hc] at hcontra
            exact ih t p hnd' hget2 hcontra
      | str s => exact ih t p hnd' hget2 hcontra

theorem alSet_alSet_same {α : Type} (l : List (String × α)) (k : String)
    (v w : α) : alSet (alSet l k v) k w = alSet l k w := by
  induction l with
  | nil => simp [alSet]
  | cons e rest ih =>
    obtain ⟨k0, v0⟩ := e
    by_cases h : k0 = k
    · simp [alSet, h]
    · simp [alSet, h, ih]

theorem alGet_alSet_isSome {α : Type} (l : List (String × α)) (k k' : String)
    (v : α) (h : (alGet l k).isSome) : (alGet (alSet l k' v) k).isSome := by
  by_cases hk : k' = k
  · subst hk
    simp [alGet_alSet_self]
  · rw [alGet_alSet_ne l k' k v hk]
    exact h

theorem alGet_foldl_setD_mem_isSome {α : Type} (reg : List (String × α)) :
    ∀ (l : List (String × α)), ∀ e ∈ reg,
      (alGet (reg.foldl (fun acc x => alSetD acc x.1 x.2) l) e.1).isSome := by
  induction reg with
  | nil => intro l e he; cases he
  | cons r rest ih =>
    intro l e he
    rw [List.foldl_cons]
    rcases List.mem_cons.mp he with h | h
    · subst h
      have h1 : (alGet (alSetD l e.1 e.2) e.1).isSome := by
        unfold alSetD
        cases hg : alGet l e.1 with
        | some v => simp [hg]
        | none =>
          rw [alGet_append_right l [(e.1, e.2)] e.1 hg]
          simp [alGet]
      obtain ⟨v, hv⟩ := Option.isSome_iff_exists.mp h1
      rw [alGet_foldl_setD rest _ e.1 v hv]
      rfl
    · exact ih _ e h

theorem foldl_setD_of_present {α : Type} (reg : List (String × α)) :
    ∀ (l : List (String × α)), (∀ e ∈ reg, (alGet l e.1).isSome) →
      reg.foldl (fun acc x => alSetD acc x.1 x.2) l = l := by
  induction reg with
  | nil => intro l _; rfl
  | cons r rest ih =>
    intro l hp
    rw [List.foldl_cons]
    have h1 : alSetD l r.1 r.2 = l := by
      unfold alSetD
      cases hg : alGet l r.1 with
      | some v => rfl
      | none =>
        have h2 := hp r (by simp)
        rw [hg] at h2
        simp at h2
    rw [h1]
    exact ih l fun e he => hp e (List.mem_cons_of_mem _ he)

theorem metadata_ext (a b : Metadata) (h1 : a.url = b.url)
    (h2 : a.defaultTasks = b.defaultTasks) (h3 : a.fields = b.fields) :
    a = b := by
  cases a
  cases b
  simp_all

/-- Every registry key is present in the rebuilt task map (`setdefault`
inserts the missing ones and the `perform_download` force-set cannot remove
a key). -/
theorem wmTasks_presence (existing : Option Metadata)
    (params : List (String × String)) (registry : List (String × TaskVal)) :
    ∀ x ∈ registry, (alGet (wmTasks existing params registry) x.1).isSome := by
  intro x hx
  have h2 := alGet_foldl_setD_mem_isSome registry
    (match existing with
      | some m =>
        match m.defaultTasks with
        | some l => l
        | none => []
      | none => []) x hx
  simp only [wmTasks]
  cases hout : out_path_of params with
  | none => exact h2
  | some s =>
    by_cases hs : s = ""
    · simpa [hs] using h2
    · simp only [if_neg hs]
      exact alGet_alSet_isSome _ _ _ _ h2

theorem wmTasks_of_defaultTasks (m : Metadata) (l : List (String × TaskVal))
    (hdt : m.defaultTasks = some l) (params : List (String × String))
    (registry : List (String × TaskVal)) :
    wmTasks (some m) params registry =
      (match out_path_of params with
        | some s =>
          if s = "" then registry.foldl (fun acc x => alSetD acc x.1 x.2) l
          else alSet (registry.foldl (fun acc x => alSetD acc x.1 x.2) l)
            "perform_download" (TaskVal.str s)
        | none => registry.foldl (fun acc x => alSetD acc x.1 x.2) l) := by
  simp [wmTasks, hdt]

theorem wmTasks_out_some (existing : Option Metadata)
    (params : List (String × String)) (registry : List (String × TaskVal))
    (s : String) (hout : out_path_of params = some s) (hs : s ≠ "") :
    wmTasks existing params registry =
      alSet (registry.foldl (fun acc x => alSetD acc x.1 x.2)
        (match existing with
          | some m =>
            match m.defaultTasks with
            | some l => l
            | none => []
          | none => []))
        "perform_download" (TaskVal.str s) := by
  simp [wmTasks, hout, hs]

/-- Rebuilding a document that was itself just rebuilt from the same params
and registry changes nothing in its task map. -/
theorem wmTasks_idem (existing : Option Metadata)
    (params : List (String × String)) (registry : List (String × TaskVal)) :
    wmTasks (some (write_masked_metadata_with_tasks existing params registry))
      params registry = wmTasks existing params registry := by
  have hfold : registry.foldl (fun acc x => alSetD acc x.1 x.2)
      (wmTasks existing params registry) = wmTasks existing params registry :=
    foldl_setD_of_present registry _ (wmTasks_presence existing params registry)
  rw [wmTasks_of_defaultTasks _ _ (wm_defaultTasks existing params registry)
    params registry, hfold]
  cases hout : out_path_of params with
  | none => rfl
  | some s =>
    by_cases hs : s = ""
    · simp [hs]
    · simp only [if_neg hs]
      rw [wmTasks_out_some existing params registry s hout hs,
        alSet_alSet_same]

theorem write_masked_fields_stable (existing : Option Metadata)
    (params : List (String × String)) (registry : List (String × TaskVal)) :
    (write_masked_metadata_with_tasks existing params registry).fields =
      masked_keys.filterMap fun k => (pget params k).map fun v => (k, v) := rfl

theorem write_masked_url_idem (existing : Option Metadata)
    (params : List (String × String)) (registry : List (String × TaskVal)) :
    (write_masked_metadata_with_tasks
      (some (write_masked_metadata_with_tasks existing params registry))
      params registry).url =
    (write_masked_metadata_with_tasks existing params registry).url := by
  cases hpu : pget params "url" with
  | none => simp [write_masked_metadata_with_tasks, hpu]
  | some u =>
    by_cases hu : u = ""
    · simp [write_masked_metadata_with_tasks, hpu, hu]
    · simp [write_masked_metadata_with_tasks, hpu, hu]

/-- `write_masked_metadata_with_tasks` is idempotent in the document slot:
saving and immediately rebuilding from the same params and registry yields
the same document (so retrying a download attempt that already wrote its
document changes nothing). -/
theorem write_masked_idem (existing : Option Metadata)
    (params : List (String × String)) (registry : List (String × TaskVal)) :
    write_masked_metadata_with_tasks
      (some (write_masked_metadata_with_tasks existing params registry))
      params registry =
    write_masked_metadata_with_tasks existing params registry := by
  apply metadata_ext
  · exact write_masked_url_idem existing params registry
  · rw [wm_defaultTasks, wm_defaultTasks, wmTasks_idem]
  · rw [write_masked_fields_stable, write_masked_fields_stable]

theorem upsert_keep_keep (u : String) :
    ∀ lines : List Line,
      ((lines.filterMap fun l =>
        match l with
        | .record r => if r.url = some u then none else some (Line.record r)
        | _ => none).filterMap fun l =>
        match l with
        | .record r => if r.url = some u then none else some (Line.record r)
        | _ => none)
      = lines.filterMap fun l =>
        match l with
        | .record r => if r.url = some u then none else some (Line.record r)
        | _ => none := by
  intro lines
  induction lines with
  | nil => rfl
  | cons l rest ih =>
    cases l with
    | blank => simpa using ih
    | malformed s => simpa using ih
    | record r =>
      by_cases h : r.url = some u
      · simpa [h] using ih
      · simp only [List.filterMap_cons, h, if_neg h] at ih ⊢
        simp [h, ih]

/-- Upserting the same document twice compacts to the same index: the
second pass drops the record the first pass appended (same url) and keeps
the kept records untouched. -/
theorem upsert_metadata_index_idem (lines : List Line) (filename : String)
    (m : Metadata) :
    upsert_metadata_index true (upsert_metadata_index true lines filename m)
      filename m = upsert_metadata_index true lines filename m := by
  cases hurl : m.url with
  | none => simp [upsert_metadata_index, hurl]
  | some u =>
    by_cases hu : u = ""
    · simp [upsert_metadata_index, hurl, hu]
    · have hres : ∀ ls : List Line,
          upsert_metadata_index true ls filename m =
            (ls.filterMap fun l =>
              match l with
              | .record r => if r.url = some u then none else some (Line.record r)
              | _ => none)
            ++ [Line.record (new_index_record filename m)] := by
        intro ls
        rw [upsert_metadata_index, hurl]
        simp [hu]
      have hnew : (new_index_record filename m).url = some u := by
        simp [new_index_record, hurl]
      rw [hres, hres, List.filterMap_append]
      simp [hnew, upsert_keep_keep u lines]

/-- Embedding of the persisted effect of one downloader attempt:
`run_my_existing_downloader` (call_router.py:57-71) runs `call_download.py`
as a subprocess, and that script's function chain ends with
`tasks_lib.write_masked_metadata_with_tasks` (call_download.py:147-153),
which reads whatever sits at the metadata path (absent or corrupt = start
from `{}`), writes the rebuilt document there, and upserts the index
(tasks_lib.py:480-483).  `attempt` is the external downloader's outcome —
a fixed value models "no external state change": `some (filename, params)`
means the chain reached the write-back for that metadata file with those
params, `none` means it failed before writing anything. -/
def run_downloader (attempt : Option (String × List (String × String)))
    (registry : List (String × TaskVal)) (st : List Line × DocStore) :
    List Line × DocStore :=
  match attempt with
  | none => st
  | some fp =>
    let existing : Option Metadata :=
      match alGet st.2 fp.1 with
      | some (some m) => some m
      | _ => none
    let newdoc := write_masked_metadata_with_tasks existing fp.2 registry
    (upsert_metadata_index true st.1 fp.1 newdoc,
      alSet st.2 fp.1 (some newdoc))

/-- Retrying a downloader attempt that already persisted its result is a
no-op on the index and document store. -/
theorem run_downloader_idem (attempt : Option (String × List (String × String)))
    (registry : List (String × TaskVal)) (st : List Line × DocStore) :
    run_downloader attempt registry (run_downloader attempt registry st) =
      run_downloader attempt registry st := by
  cases attempt with
  | none => rfl
  | some fp =>
    obtain ⟨filename, ps⟩ := fp
    simp only [run_downloader, alGet_alSet_self]
    rw [write_masked_idem, upsert_metadata_index_idem, alSet_alSet_same]

/-- The test `if not found_file or not perform_download_done`
(call_router.py:133), negated: the downloader is skipped exactly when the
lookup found a file whose recorded `perform_download` is truthy. -/
def firstLookupOk (first : Option (String × Metadata)) : Bool :=
  match first with
  | some fm => truthyTV (pddOf fm.2)
  | none => false

/-- Embedding of `call_router.main` as a transformer of the persisted state
(index lines × document store): look the url up; if no file or no truthy
`perform_download` (call_router.py:133), run the downloader attempt and the
second lookup feeds `router_main`; otherwise the state is untouched and the
first lookup decides (the code skips the second lookup then, and
`router_resolved` ignores its second argument in that case, so passing the
lookup over the unchanged state is value-identical).  `execute_tasks`
discards the results of its subprocesses (call_router.py:50) and no
dispatch script in src/ writes the document (see the section comment
above), so dispatch contributes the invocation list of the `ran` outcome
but no state change; the downloader write-back of `run_downloader` is the
only mutation a run performs. -/
def router_run (attempt : Option (String × List (String × String)))
    (registry : List (String × TaskVal)) (dirFiles : List String)
    (existsAt : Nat → Bool) (dry : Bool) (url : String)
    (st : List Line × DocStore) : (List Line × DocStore) × RouterResult :=
  let first := find_url_json true true st.1 st.2 url
  let st' := if firstLookupOk first then st
    else run_downloader attempt registry st
  (st', router_main first (find_url_json true true st'.1 st'.2 url)
    dirFiles existsAt dry url)

/-- When the first lookup already shows a completed download the resolved
document is that lookup's. -/
theorem router_resolved_of_ok (first second : Option (String × Metadata))
    (h : firstLookupOk first = true) : router_resolved first second = first := by
  cases first with
  | none => simp [firstLookupOk] at h
  | some fm =>
    obtain ⟨f, m⟩ := fm
    simp only [firstLookupOk] at h
    simp [router_resolved, h]

/-- When the first lookup does not show a completed download the resolved
document is the post-download lookup's. -/
theorem router_resolved_of_not_ok (first second : Option (String × Metadata))
    (h : firstLookupOk first = false) : router_resolved first second = second := by
  cases first with
  | none => rfl
  | some fm =>
    obtain ⟨f, m⟩ := fm
    simp only [firstLookupOk] at h
    simp [router_resolved, h]

/-- A `ran` outcome of `router_main` certifies the shape of the resolved
document: a found file whose `perform_download` is a string path, a
non-empty `default_tasks` section, and the invocation list is exactly that
section's dispatch. -/
theorem router_main_ran (first second : Option (String × Metadata))
    (dirFiles : List String) (existsAt : Nat → Bool) (dry : Bool)
    (url : String) (inv : List (String × String))
    (hran : router_main first second dirFiles existsAt dry url =
      RouterResult.ran inv) :
    ∃ f m ts tp, router_resolved first second = some (f, m) ∧
      m.defaultTasks = some ts ∧ pddOf m = some (TaskVal.str tp) ∧
      inv = invokedTasks ts url tp dry := by
  unfold router_main at hran
  cases hres : router_resolved first second with
  | none => simp [hres] at hran
  | some fm =>
    obtain ⟨f, m⟩ := fm
    simp only [hres] at hran
    cases hpdd : pddOf m with
    | none => simp [hpdd] at hran
    | some tv =>
      cases tv with
      | bool b => simp [hpdd] at hran
      | str tp =>
        simp only [hpdd] at hran
        by_cases hw : wait_for_download_file existsAt
            (!(partCandidates dirFiles (stripLastExt (baseNameOf tp))).isEmpty)
            90 3 = true
        · simp only [if_pos hw] at hran
          cases hdt : m.defaultTasks with
          | none => simp [hdt] at hran
          | some ts =>
            simp only [hdt] at hran
            by_cases hts : ts = []
            · subst hts
              simp at hran
            · have hts2 : ts.isEmpty = false := by
                cases ts with
                | nil => exact absurd rfl hts
                | cons a l => rfl
              rw [hts2] at hran
              simp at hran
              exact ⟨f, m, ts, tp, rfl, hdt, hpdd, hran.symm⟩
        · simp [if_neg hw] at hran

/-- The state a run leaves behind depends only on whether the first lookup
already showed a completed download: every later branch is read-only. -/
theorem router_run_state (attempt : Option (String × List (String × String)))
    (registry : List (String × TaskVal)) (dirFiles : List String)
    (existsAt : Nat → Bool) (dry : Bool) (url : String)
    (st : List Line × DocStore) :
    (router_run attempt registry dirFiles existsAt dry url st).1 =
      if firstLookupOk (find_url_json true true st.1 st.2 url) then st
      else run_downloader attempt registry st := rfl

/-- C4.  A pipeline run never invokes the worker of a task whose recorded
state is `Completed` (a string output path): the dispatch of a task map
with distinct keys (as Python dict keys are) never lists a completed task
(conjunct 1), and a run's invocation list is exactly the dispatch of the
task map of the document the run's final state resolves for the url
(conjunct 2).  And running the pipeline a second time on the same URL with
no external state change — the same downloader outcome and the same
filesystem trace — leaves the persisted index and document store, hence
the document contents, exactly as the first run left them (conjunct 3):
task dispatch discards its subprocesses' results (call_router.py:50), so
the run's only mutation is the download write-back, which is idempotent. -/
theorem C4_idempotent_rerun
    (attempt : Option (String × List (String × String)))
    (registry : List (String × TaskVal)) (dirFiles : List String)
    (existsAt : Nat → Bool) (dry : Bool) (url : String)
    (st : List Line × DocStore) :
    (∀ (ts : List (String × TaskVal)) (t p tp : String),
      (ts.map Prod.fst).Nodup → alGet ts t = some (TaskVal.str p) →
      t ∉ (invokedTasks ts url tp dry).map Prod.fst) ∧
    (∀ inv, (router_run attempt registry dirFiles existsAt dry url st).2 =
        RouterResult.ran inv →
      ∃ f m ts tp,
        find_url_json true true
          (router_run attempt registry dirFiles existsAt dry url st).1.1
          (router_run attempt registry dirFiles existsAt dry url st).1.2 url =
          some (f, m) ∧
        m.defaultTasks = some ts ∧ pddOf m = some (TaskVal.str tp) ∧
        inv = invokedTasks ts url tp dry) ∧
    ((router_run attempt registry dirFiles existsAt dry url
        ((router_run attempt registry dirFiles existsAt dry url st).1)).1 =
      (router_run attempt registry dirFiles existsAt dry url st).1) := by
  refine ⟨?_, ?_, ?_⟩
  · intro ts t p tp hnd hget
    exact completed_not_invoked url tp dry ts t p hnd hget
  · intro inv hran
    have hmain : router_main (find_url_json true true st.1 st.2 url)
        (find_url_json true true
          (router_run attempt registry dirFiles existsAt dry url st).1.1
          (router_run attempt registry dirFiles existsAt dry url st).1.2 url)
        dirFiles existsAt dry url = RouterResult.ran inv := hran
    obtain ⟨f, m, ts, tp, hres, hdt, hpdd, hinv⟩ :=
      router_main_ran _ _ _ _ _ _ _ hmain
    refine ⟨f, m, ts, tp, ?_, hdt, hpdd, hinv⟩
    by_cases hfo : firstLookupOk (find_url_json true true st.1 st.2 url) = true
    · rw [router_resolved_of_ok _ _ hfo] at hres
      have hS : (router_run attempt registry dirFiles existsAt dry url st).1 =
          st := by rw [router_run_state, if_pos hfo]
      rw [hS]
      exact hres
    · have hfo2 : firstLookupOk (find_url_json true true st.1 st.2 url) =
          false := Bool.eq_false_iff.mpr hfo
      rw [router_resolved_of_not_ok _ _ hfo2] at hres
      exact hres
  · by_cases hfo : firstLookupOk (find_url_json true true st.1 st.2 url) = true
    · have hS : (router_run attempt registry dirFiles existsAt dry url st).1 =
          st := by rw [router_run_state, if_pos hfo]
      rw [hS]
      exact hS
    · have hS : (router_run attempt registry dirFiles existsAt dry url st).1 =
          run_downloader attempt registry st := by
        rw [router_run_state, if_neg hfo]
      rw [hS, router_run_state]
      by_cases hfo2 : firstLookupOk (find_url_json true true
          (run_downloader attempt registry st).1
          (run_downloader attempt registry st).2 url) = true
      · rw [if_pos hfo2]
      · rw [if_neg hfo2, run_downloader_idem]


/-- The C4 scenario's downloader outcome: the attempt reaches the
write-back at `m1.json` carrying the url and the downloaded file path. -/
def c4attempt : Option (String × List (String × String)) :=
  some ("m1.json", [("url", "https://x/1"), ("to_process", "/out/1.mp4")])

/-- The C4 scenario's task registry: a watermark task enabled by default. -/
def c4registry : List (String × TaskVal) := [("apply_watermark", TaskVal.bool true)]

/-- C4 (witness): the theorem applied at concrete inputs — starting from an
empty store, the first run downloads and dispatches only the pending
watermark (never the completed download), and the second run leaves the
persisted state exactly where the first run put it. -/
theorem C4_witness :
    ("perform_download" ∉
      (invokedTasks [("perform_download", TaskVal.str "/out/1.mp4"),
        ("apply_watermark", TaskVal.bool true)] "https://x/1" "/out/1.mp4"
        false).map Prod.fst) ∧
    (∃ f m ts tp,
      find_url_json true true
        (router_run c4attempt c4registry [] (fun _ => true) false "https://x/1"
          (([], []) : List Line × DocStore)).1.1
        (router_run c4attempt c4registry [] (fun _ => true) false "https://x/1"
          (([], []) : List Line × DocStore)).1.2 "https://x/1" = some (f, m) ∧
      m.defaultTasks = some ts ∧ pddOf m = some (TaskVal.str tp) ∧
      [("apply_watermark", "/out/1.mp4")] =
        invokedTasks ts "https://x/1" tp false) ∧
    ((router_run c4attempt c4registry [] (fun _ => true) false "https://x/1"
        ((router_run c4attempt c4registry [] (fun _ => true) false "https://x/1"
          (([], []) : List Line × DocStore)).1)).1 =
      (router_run c4attempt c4registry [] (fun _ => true) false "https://x/1"
        (([], []) : List Line × DocStore)).1) :=
  ⟨(C4_idempotent_rerun c4attempt c4registry [] (fun _ => true) false
      "https://x/1" ([], [])).1
      [("perform_download", TaskVal.str "/out/1.mp4"),
       ("apply_watermark", TaskVal.bool true)] "perform_download" "/out/1.mp4"
      "/out/1.mp4" (by decide) rfl,
   (C4_idempotent_rerun c4attempt c4registry [] (fun _ => true) false
      "https://x/1" ([], [])).2.1 [("apply_watermark", "/out/1.mp4")] rfl,
   (C4_idempotent_rerun c4attempt c4registry [] (fun _ => true) false
      "https://x/1" ([], [])).2.2⟩


/-! ## Cleanup dry-run equivalence (C9) -/

theorem getLast_opt_map {α β : Type} (f : α → β) :
    ∀ l : List α, (l.map f).getLast? = l.getLast?.map f
  | [] => rfl
  | [_] => rfl
  | a :: b :: l => by
    rw [List.map_cons, List.map_cons, List.getLast?_cons_cons,
      List.getLast?_cons_cons, ← List.map_cons]
    exact getLast_opt_map f (b :: l)

theorem listEndsWith_getLast (suf l : List Char)
    (h : listEndsWith suf l = true) (hne : suf ≠ []) :
    l.getLast? = suf.getLast? := by
  have hd : l.drop (l.length - suf.length) = suf := by
    simpa [listEndsWith] using h
  calc l.getLast?
      = (l.take (l.length - suf.length) ++
          l.drop (l.length - suf.length)).getLast? := by
        rw [List.take_append_drop]
    _ = (l.drop (l.length - suf.length)).getLast? :=
        List.getLast?_append_of_ne_nil _ (by rw [hd]; exact hne)
    _ = suf.getLast? := by rw [hd]

theorem endsWith_false_of_last (l suf : List Char) (c : Char)
    (hl : l.getLast? = some c) (hsuf : suf.getLast? ≠ some c)
    (hne : suf ≠ []) : listEndsWith suf l = false := by
  cases h : listEndsWith suf l
  · rfl
  · exact absurd ((listEndsWith_getLast suf l h hne).symm.trans hl) hsuf

theorem json_lowered_last (s : String)
    (h : listEndsWith ".json".data s.data = true) :
    (lowerData s).getLast? = some 'n' := by
  have h1 : s.data.getLast? = some 'n' := by
    rw [listEndsWith_getLast _ _ h (by decide)]
    rfl
  rw [lowerData, getLast_opt_map, h1]
  rfl

theorem json_not_part_suffixed (s : String)
    (hjson : listEndsWith ".json".data s.data = true) :
    (PART_SUFFIXES.any fun suf => listEndsWith suf (lowerData s)) = false := by
  have hn := json_lowered_last s hjson
  have h1 := endsWith_false_of_last (lowerData s) ".part".data 'n' hn
    (by decide) (by decide)
  have h2 := endsWith_false_of_last (lowerData s) ".ytdl".data 'n' hn
    (by decide) (by decide)
  have h3 := endsWith_false_of_last (lowerData s) ".tmp".data 'n' hn
    (by decide) (by decide)
  simp [PART_SUFFIXES, h1, h2, h3]

theorem mem_sidecars_ends_json (outFiles : DocStore) (url s : String)
    (hs : s ∈ find_output_json_files_for_url outFiles url) :
    listEndsWith ".json".data s.data = true := by
  rw [find_output_json_files_for_url] at hs
  obtain ⟨e, _, hfe⟩ := List.mem_filterMap.mp hs
  by_cases hj : listEndsWith ".json".data e.1.data = true
  · rw [if_pos hj] at hfe
    cases hd : e.2 with
    | none => simp [hd] at hfe
    | some d =>
      simp only [hd] at hfe
      by_cases hu : d.url = some url
      · rw [if_pos hu] at hfe
        exact (Option.some.inj hfe) ▸ hj
      · rw [if_neg hu] at hfe
        cases hfe
  · rw [if_neg hj] at hfe
    cases hfe

theorem sidecar_not_part_candidate (outFiles : DocStore)
    (tokens : List String) (url s : String)
    (hs : s ∈ find_output_json_files_for_url outFiles url) :
    s ∉ collect_part_candidates outFiles tokens := by
  have hjson := mem_sidecars_ends_json outFiles url s hs
  intro hmem
  rw [collect_part_candidates] at hmem
  by_cases htok : tokens.isEmpty
  · rw [if_pos htok] at hmem; cases hmem
  · rw [if_neg htok] at hmem
    obtain ⟨e, _, hfe⟩ := List.mem_filterMap.mp hmem
    by_cases hc : ((PART_SUFFIXES.any fun suf => listEndsWith suf (lowerData e.1))
        && tokens.any fun t => t ≠ "" && listContainsSub (lowerData t)
          (lowerData e.1)) = true
    · rw [if_pos hc] at hfe
      cases hfe
      have hany : (PART_SUFFIXES.any fun suf =>
          listEndsWith suf (lowerData e.1)) = true :=
        (Bool.and_eq_true .. ▸ hc).1
      rw [json_not_part_suffixed e.1 hjson] at hany
      cases hany
    · rw [if_neg hc] at hfe; cases hfe

theorem remove_paths_dry {α : Type} :
    ∀ (ps : List String) (st : List (String × α)),
      remove_paths true ps st = (ps.filter fun p => (alGet st p).isSome, st) := by
  intro ps
  induction ps with
  | nil => intro st; simp [remove_paths]
  | cons p rest ih =>
    intro st
    rw [remove_paths]
    cases hg : alGet st p with
    | none => simp [hg, ih, List.filter_cons]
    | some v => simp [hg, ih, List.filter_cons]

theorem alGet_filter_ne {α : Type} :
    ∀ (st : List (String × α)) (x p : String), x ≠ p →
      alGet (st.filter fun e => e.1 ≠ p) x = alGet st x := by
  intro st
  induction st with
  | nil => intro x p _; rfl
  | cons e rest ih =>
    intro x p hxp
    obtain ⟨k, v⟩ := e
    by_cases hk : k = p
    · have hkx : ¬ k = x := fun h => hxp (h ▸ hk)
      have h1 : List.filter (fun e => decide (e.1 ≠ p)) ((k, v) :: rest) =
          List.filter (fun e => decide (e.1 ≠ p)) rest := by
        rw [List.filter_cons]
        simp [hk]
      rw [h1, ih x p hxp]
      simp only [alGet, if_neg hkx]
    · have h1 : List.filter (fun e => decide (e.1 ≠ p)) ((k, v) :: rest) =
          (k, v) :: List.filter (fun e => decide (e.1 ≠ p)) rest := by
        rw [List.filter_cons]
        simp [hk]
      rw [h1]
      by_cases hkx : k = x
      · simp only [alGet, if_pos hkx]
      · simp only [alGet, if_neg hkx]
        exact ih x p hxp

theorem remove_paths_real_report {α : Type} :
    ∀ (ps : List String) (st : List (String × α)), ps.Nodup →
      (remove_paths false ps st).1 = ps.filter fun p => (alGet st p).isSome := by
  intro ps
  induction ps with
  | nil => intro st _; simp [remove_paths]
  | cons p rest ih =>
    intro st hnd
    have hnotin : p ∉ rest := (List.nodup_cons.mp hnd).1
    have hnd' : rest.Nodup := (List.nodup_cons.mp hnd).2
    cases hg : alGet st p with
    | none => simp [remove_paths, hg, ih st hnd', List.filter_cons]
    | some v =>
      have hrest : (remove_paths false rest
          (st.filter fun e => e.1 ≠ p)).1 =
          rest.filter fun x => (alGet st x).isSome := by
        rw [ih _ hnd']
        apply List.filter_congr
        intro x hx
        rw [alGet_filter_ne st x p (fun h => hnotin (h ▸ hx))]
      have h1 : (remove_paths false (p :: rest) st).1 =
          p :: (remove_paths false rest (st.filter fun e => e.1 ≠ p)).1 := by
        simp [remove_paths, hg]
      rw [h1, hrest, List.filter_cons]
      simp [hg]

theorem remove_paths_not_mem {α : Type} :
    ∀ (ps : List String) (st : List (String × α)) (x : String), x ∉ ps →
      alGet ((remove_paths false ps st).2) x = alGet st x := by
  intro ps
  induction ps with
  | nil => intro st x _; rfl
  | cons p rest ih =>
    intro st x hx
    have hxp : x ≠ p := fun h => hx (h ▸ List.mem_cons_self p rest)
    have hxrest : x ∉ rest := fun h => hx (List.mem_cons_of_mem p h)
    cases hg : alGet st p with
    | none =>
      have h1 : (remove_paths false (p :: rest) st).2 =
          (remove_paths false rest st).2 := by
        simp [remove_paths, hg]
      rw [h1]
      exact ih st x hxrest
    | some v =>
      have h1 : (remove_paths false (p :: rest) st).2 =
          (remove_paths false rest (st.filter fun e => e.1 ≠ p)).2 := by
        simp [remove_paths, hg]
      rw [h1, ih (st.filter fun e => e.1 ≠ p) x hxrest]
      exact alGet_filter_ne st x p hxp

theorem filterMap_fst_sublist {α : Type} (f : String × α → Option String)
    (hf : ∀ e s, f e = some s → s = e.1) :
    ∀ st : List (String × α), List.Sublist (st.filterMap f) (st.map Prod.fst) := by
  intro st
  induction st with
  | nil => simp
  | cons e rest ih =>
    rw [List.filterMap_cons, List.map_cons]
    cases hfe : f e with
    | none => exact ih.cons _
    | some s =>
      rw [hf e s hfe]
      exact ih.cons₂ _

theorem filterMap_pair_fst_sublist {α β : Type}
    (f : String × α → Option (String × β))
    (hf : ∀ e pr, f e = some pr → pr.1 = e.1) :
    ∀ st : List (String × α),
      List.Sublist ((st.filterMap f).map Prod.fst) (st.map Prod.fst) := by
  intro st
  induction st with
  | nil => simp
  | cons e rest ih =>
    rw [List.filterMap_cons, List.map_cons]
    cases hfe : f e with
    | none => exact ih.cons _
    | some pr =>
      rw [List.map_cons, hf e pr hfe]
      exact ih.cons₂ _

theorem metaNames_fold_nodup (recs : List IndexRecord) :
    ∀ acc : List String, acc.Nodup →
      (recs.foldl
        (fun acc r =>
          match r.metadata_file with
          | some nm =>
            if nm = "" then acc
            else if acc.contains nm then acc else acc ++ [nm]
          | none => acc)
        acc).Nodup := by
  induction recs with
  | nil => intro acc hacc; exact hacc
  | cons r rest ih =>
    intro acc hacc
    rw [List.foldl_cons]
    apply ih
    cases hmf : r.metadata_file with
    | none => exact hacc
    | some nm =>
      by_cases hnm : nm = ""
      · simpa [hnm] using hacc
      · by_cases hcont : nm ∈ acc
        · simpa [hnm, hcont] using hacc
        · simp [hnm, hcont, List.nodup_append, hacc]

/-- The canonical value of one cleanup run's report, with every candidate
set computed against the *initial* filesystem state: both the dry run and
(on a wellformed state) the real run produce exactly this. -/
def cleanupReport (fs : FS) (url : String)
    (skipParts outputDirConfigured : Bool) : CleanReport :=
  let removed := (recordsOf fs.indexLines).filter fun r => r.url = some url
  let found := find_metadata_files_for_url fs.metaFiles url
  let metaNames := removed.foldl
    (fun acc r =>
      match r.metadata_file with
      | some nm => if nm = "" then acc else if acc.contains nm then acc else acc ++ [nm]
      | none => acc)
    found.1
  let metaRemoved := metaNames.filter fun p => (alGet fs.metaFiles p).isSome
  let rawTokens := slug_from_url url ::
    (collect_tokens_from_records found.2 ++
      removed.flatMap fun r =>
        (match r.id with
          | some v => if v = "" then [] else [v]
          | none => []) ++
        (match r.shortcode with
          | some v => if v = "" then [] else [v]
          | none => []))
  let rawCandidates := fs.rawFiles.filterMap fun e =>
    if rawTokens.any (fun t => t ≠ "" && listContainsSub t.data e.1.data)
    then some e.1 else none
  let rawRemoved := rawCandidates.filter fun p => (alGet fs.rawFiles p).isSome
  if skipParts || !outputDirConfigured then
    { removedIndex := removed, removedMeta := metaRemoved,
      removedRaw := rawRemoved, removedSidecars := [], removedParts := [] }
  else
    let sidecars := find_output_json_files_for_url fs.outFiles url
    let partTokens := rawTokens ++ metaRemoved.map stripLastExt ++
      sidecars.map stripLastExt
    let partCands := collect_part_candidates fs.outFiles partTokens
    { removedIndex := removed, removedMeta := metaRemoved,
      removedRaw := rawRemoved,
      removedSidecars := sidecars.filter fun p => (alGet fs.outFiles p).isSome,
      removedParts := partCands.filter fun p => (alGet fs.outFiles p).isSome }

theorem rmil_dry (lines : List Line) (u : String) :
    remove_matching_index_lines lines u true =
      ((recordsOf lines).filter fun r => r.url = some u, lines) := by
  simp [remove_matching_index_lines]

theorem rmil_fst (lines : List Line) (u : String) (d : Bool) :
    (remove_matching_index_lines lines u d).1 =
      (recordsOf lines).filter fun r => r.url = some u := by
  simp only [remove_matching_index_lines]
  split <;> rfl

theorem cleanup_dry (fs : FS) (url : String) (sp oc : Bool) :
    cleanup fs url true sp oc = (cleanupReport fs url sp oc, fs) := by
  obtain ⟨il, mf, rf, of⟩ := fs
  simp [cleanup, cleanupReport, rmil_dry, remove_paths_dry]
  split <;> rfl

theorem filterMap_if_fst_nodup {α : Type} (st : List (String × α))
    (pred : String × α → Bool) (h : (st.map Prod.fst).Nodup) :
    (st.filterMap fun e => if pred e then some e.1 else none).Nodup := by
  refine h.sublist (filterMap_fst_sublist _ ?_ st)
  intro e s hh
  by_cases hp : pred e = true
  · rw [if_pos hp] at hh
    exact (Option.some.inj hh).symm
  · rw [if_neg hp] at hh
    cases hh

theorem find_meta_fst_nodup (mf : DocStore) (url : String)
    (hm : (mf.map Prod.fst).Nodup) :
    ((find_metadata_files_for_url mf url).1).Nodup := by
  rw [find_metadata_files_for_url]
  refine hm.sublist (filterMap_pair_fst_sublist _ ?_ mf)
  intro e pr h
  by_cases h1 : e.1 = "index.jsonl"
  · rw [if_pos h1] at h
    cases h
  · rw [if_neg h1] at h
    by_cases h2 : listEndsWith ".json".data e.1.data = true
    · rw [if_pos h2] at h
      cases hd : e.2 with
      | none => simp [hd] at h
      | some d =>
        simp only [hd] at h
        by_cases hu : d.url = some url
        · rw [if_pos hu] at h
          rw [← Option.some.inj h]
        · rw [if_neg hu] at h
          cases h
    · rw [if_neg h2] at h
      cases h

theorem sidecars_nodup (of : DocStore) (url : String)
    (hout : (of.map Prod.fst).Nodup) :
    (find_output_json_files_for_url of url).Nodup := by
  rw [find_output_json_files_for_url]
  refine hout.sublist (filterMap_fst_sublist _ ?_ of)
  intro e s h
  by_cases h2 : listEndsWith ".json".data e.1.data = true
  · rw [if_pos h2] at h
    cases hd : e.2 with
    | none => simp [hd] at h
    | some d =>
      simp only [hd] at h
      by_cases hu : d.url = some url
      · rw [if_pos hu] at h
        exact (Option.some.inj h).symm
      · rw [if_neg hu] at h
        cases h
  · rw [if_neg h2] at h
    cases h

theorem partCands_nodup (of : DocStore) (tokens : List String)
    (hout : (of.map Prod.fst).Nodup) :
    (collect_part_candidates of tokens).Nodup := by
  rw [collect_part_candidates]
  by_cases ht : tokens.isEmpty
  · rw [if_pos ht]
    exact List.nodup_nil
  · rw [if_neg ht]
    exact filterMap_if_fst_nodup of _ hout

theorem cleanup_real_report (fs : FS) (url : String) (sp oc : Bool)
    (hwf : (fs.metaFiles.map Prod.fst).Nodup ∧
      (fs.rawFiles.map Prod.fst).Nodup ∧ (fs.outFiles.map Prod.fst).Nodup) :
    (cleanup fs url false sp oc).1 = cleanupReport fs url sp oc := by
  obtain ⟨hm, hraw, hout⟩ := hwf
  obtain ⟨il, mf, rf, of⟩ := fs
  dsimp only at hm hraw hout
  have hfound_nd : ((find_metadata_files_for_url mf url).1).Nodup :=
    find_meta_fst_nodup mf url hm
  have hmn_nd : (((recordsOf il).filter fun r => r.url = some url).foldl
      (fun acc r =>
        match r.metadata_file with
        | some nm =>
          if nm = "" then acc
          else if acc.contains nm then acc else acc ++ [nm]
        | none => acc)
      (find_metadata_files_for_url mf url).1).Nodup :=
    metaNames_fold_nodup _ _ hfound_nd
  have hcongr : ∀ (tokens : List String),
      ∀ s ∈ find_output_json_files_for_url of url,
        (alGet ((remove_paths false
          (collect_part_candidates of tokens) of).2) s).isSome =
        (alGet of s).isSome := by
    intro tokens s hs
    rw [remove_paths_not_mem _ of s
      (sidecar_not_part_candidate of tokens url s hs)]
  simp only [cleanup, cleanupReport, rmil_fst]
  rw [remove_paths_real_report _ mf hmn_nd]
  rw [remove_paths_real_report _ rf (filterMap_if_fst_nodup rf _ hraw)]
  by_cases hb : (sp || !oc) = true
  · rw [if_pos hb, if_pos hb]
  · rw [if_neg hb, if_neg hb]
    rw [remove_paths_real_report _ of (partCands_nodup of _ hout)]
    rw [remove_paths_real_report _ _ (sidecars_nodup of url hout)]
    rw [List.filter_congr (hcongr _)]

/-- Wellformedness of the modelled filesystem: each directory listing holds
distinct filenames, as any real directory does. -/
def FSWF (fs : FS) : Prop :=
  (fs.metaFiles.map Prod.fst).Nodup ∧ (fs.rawFiles.map Prod.fst).Nodup ∧
  (fs.outFiles.map Prod.fst).Nodup

/-- C9.  On every (wellformed) filesystem state, the report of
`cleanup(url, dry_run=true)` — index records, metadata files, raw files,
output sidecars, and partial-download files — equals, category by category,
the set actually removed by `cleanup(url, dry_run=false)` on that same
unmodified state, and the dry run leaves the filesystem exactly as it found
it. -/
theorem C9_dry_run_equivalence (fs : FS) (url : String)
    (skipParts outputDirConfigured : Bool) (hwf : FSWF fs) :
    (cleanup fs url true skipParts outputDirConfigured).1 =
      (cleanup fs url false skipParts outputDirConfigured).1 ∧
    (cleanup fs url true skipParts outputDirConfigured).2 = fs := by
  constructor
  · rw [cleanup_dry,
      cleanup_real_report fs url skipParts outputDirConfigured hwf]
  · rw [cleanup_dry]

/-- The C9 scenario's document: completed download with id and uploader
fields that the token derivation picks up. -/
def c9doc : Metadata :=
  { url := some "https://x/1"
    defaultTasks := some [("perform_download", TaskVal.str "/out/1.mp4")]
    fields := [("id", "abc123"), ("uploader", "Some User")] }

/-- A document for an unrelated url, which cleanup must leave alone. -/
def c9docY : Metadata :=
  { url := some "https://y/2", defaultTasks := none, fields := [] }

/-- An output sidecar whose `url` matches the cleaned url. -/
def c9side : Metadata :=
  { url := some "https://x/1", defaultTasks := none, fields := [] }

/-- The C9 scenario filesystem: one stale index record plus one for another
url, two metadata files, a token-matching raw capture, an output sidecar,
and a token-matching partial download. -/
def c9fs : FS :=
  { indexLines :=
      [Line.record ⟨some "https://x/1", some "m1.json", some "abc123", none⟩,
       Line.record ⟨some "https://y/2", some "y.json", none, none⟩]
    metaFiles := [("m1.json", some c9doc), ("y.json", some c9docY)]
    rawFiles := [("abc123.info.json", ()), ("unrelated.txt", ())]
    outFiles := [("clip1.json", some c9side),
      ("Some_User_video.mp4.part", none)] }

/-- C9 (witness): the theorem applied to the concrete scenario state. -/
theorem C9_witness :
    (cleanup c9fs "https://x/1" true false true).1 =
      (cleanup c9fs "https://x/1" false false true).1 ∧
    (cleanup c9fs "https://x/1" true false true).2 = c9fs :=
  C9_dry_run_equivalence c9fs "https://x/1" false true
    ⟨by decide, by decide, by decide⟩

end DLWM
